import Mathlib

/-!
# Production planning (`solucion.js`)

A shallow embedding of `planificarProduccion`, the topological ordering of
production orders by Kahn's algorithm, and the properties of it that the
specification states.

* JavaScript `Map`s are association lists in insertion order (`Mapa`).
* The thrown `Error` is represented by its message.
* The `while` loop runs on fuel; `bucle_termina` shows that the fuel given
  by `planificarProduccion` is always enough.
-/

namespace Planificador

/-! ## Data model -/

/-- An element of the input array: an object with the fields `id`, `duracion`
and `dependencia`. A `dependencia` that is `null` or absent is `none`. -/
structure Orden where
  id : String
  duracion : Int
  dependencia : Option String
deriving DecidableEq, Repr

/-- The test `if (dependencia)` of line 31: the dependency the order declares,
which is the field when it is a non-empty string (`null`, `undefined` and the
empty string are falsy). -/
def Orden.declarada (o : Orden) : Option String :=
  match o.dependencia with
  | none => none
  | some d => if d = "" then none else some d

/-- A JavaScript `Map` with string keys: the entries in insertion order. -/
abbrev Mapa (V : Type) := List (String × V)

/-- `Map.prototype.get`: the value of the entry with key `k`, if there is one. -/
def Mapa.get {V : Type} : Mapa V → String → Option V
  | [], _ => none
  | (c, v) :: resto, k => if c = k then some v else Mapa.get resto k

/-- `Map.prototype.set`: replaces the value of an existing key in place, and
appends a new entry for a new key. -/
def Mapa.set {V : Type} : Mapa V → String → V → Mapa V
  | [], k, v => [(k, v)]
  | (c, w) :: resto, k, v =>
    if c = k then (k, v) :: resto else (c, w) :: Mapa.set resto k v

/-- The update of the value stored under `k`, as in
`adjList.get(k).push(id)` and `inDegree.set(k, inDegree.get(k) + 1)`: the
entry keeps its position. The key is present wherever the source does this:
from line 27 on the keys are the ids of the input (`inicializar_spec`) and no
later step changes them (`construir_ok`, `procesarSiguientes_spec`). On an
absent key the map is left as it is. -/
def Mapa.modificar {V : Type} : Mapa V → String → (V → V) → Mapa V
  | [], _, _ => []
  | (c, w) :: resto, k, f =>
    if c = k then (c, f w) :: resto else (c, w) :: Mapa.modificar resto k f

/-- The keys of a map in insertion order. -/
def Mapa.claves {V : Type} (m : Mapa V) : List String := m.map Prod.fst

/-! ## The two failures -/

/-- The message of the error thrown at lines 34-36. -/
def mensajeReferencia (dependencia id : String) : String :=
  "La dependencia '" ++ dependencia ++ "' para la orden '" ++ id ++ "' no existe."

/-- The message of the error thrown at lines 79-81. -/
def mensajeCircular : String :=
  "Dependencia circular detectada. No se puede generar un plan de producción válido."

/-! ## The algorithm -/

/-- Lines 24-27: every order id gets in-degree `0` and an empty list of
successors. The result is the pair `(adjList, inDegree)`. -/
def inicializar : List Orden → Mapa (List String) → Mapa Int →
    Mapa (List String) × Mapa Int
  | [], adjList, inDegree => (adjList, inDegree)
  | orden :: resto, adjList, inDegree =>
    inicializar resto (Mapa.set adjList orden.id []) (Mapa.set inDegree orden.id 0)

/-- Lines 29-43: for every order with a dependency, check that the dependency
is an order id (`ordenIds.has`), then record the edge and count it. -/
def construir : List Orden → List String → Mapa (List String) → Mapa Int →
    Except String (Mapa (List String) × Mapa Int)
  | [], _, adjList, inDegree => .ok (adjList, inDegree)
  | orden :: resto, ordenIds, adjList, inDegree =>
    match orden.declarada with
    | none => construir resto ordenIds adjList inDegree
    | some dependencia =>
      if dependencia ∈ ordenIds then
        construir resto ordenIds
          (Mapa.modificar adjList dependencia (fun vecinas => vecinas ++ [orden.id]))
          (Mapa.modificar inDegree orden.id (fun g => g + 1))
      else
        .error (mensajeReferencia dependencia orden.id)

/-- Lines 46-51: the ids of in-degree `0`, in the order of the map. -/
def colaInicial (inDegree : Mapa Int) : List String :=
  (inDegree.filter (fun e => e.2 = 0)).map Prod.fst

/-- Lines 64-70: the loop over the successors of the order just planned. It
returns the in-degrees and the queue. -/
def procesarSiguientes : List String → Mapa Int → List String →
    Mapa Int × List String
  | [], inDegree, queue => (inDegree, queue)
  | siguiente :: resto, inDegree, queue =>
    let inDegree1 := Mapa.modificar inDegree siguiente (fun g => g - 1)
    if Mapa.get inDegree1 siguiente = some 0 then
      procesarSiguientes resto inDegree1 (queue ++ [siguiente])
    else
      procesarSiguientes resto inDegree1 queue

/-- Lines 56-72: the `while` loop, one iteration per unit of fuel. The result
is `planFinal` when the queue empties, and `none` when the fuel runs out
first. -/
def bucle (adjList : Mapa (List String)) :
    Nat → List String → Mapa Int → List String → Option (List String)
  | _, [], _, planFinal => some planFinal
  | 0, _ :: _, _, _ => none
  | fuel + 1, ordenActualId :: resto, inDegree, planFinal =>
    match Mapa.get adjList ordenActualId with
    | some ordenesSiguientes =>
      let r := procesarSiguientes ordenesSiguientes inDegree resto
      bucle adjList fuel r.2 r.1 (planFinal ++ [ordenActualId])
    | none => bucle adjList fuel resto inDegree (planFinal ++ [ordenActualId])

/-- Lines 19-82, the body of the function after the guard of line 15. The
outer `Option` is `none` only if the loop runs out of fuel. -/
def planificarLista (ordenes : List Orden) : Option (Except String (List String)) :=
  let ordenIds := ordenes.map (fun o => o.id)
  let mapas := inicializar ordenes [] []
  match construir ordenes ordenIds mapas.1 mapas.2 with
  | .error e => some (.error e)
  | .ok (adjList, inDegree) =>
    match bucle adjList ordenes.length (colaInicial inDegree) inDegree [] with
    | none => none
    | some planFinal =>
      if planFinal.length = ordenes.length then some (.ok planFinal)
      else some (.error mensajeCircular)

/-- The function `planificarProduccion`. The argument is `none` for a `null`
or `undefined` array. -/
def planificarProduccion (ordenes : Option (List Orden)) :
    Option (Except String (List String)) :=
  match ordenes with
  | none => some (.ok [])
  | some lista => if lista.length = 0 then some (.ok []) else planificarLista lista

/-! ## The dependency graph of an input -/

/-- The ids of the orders, in input order. -/
def ids (os : List Orden) : List String := os.map (fun o => o.id)

/-- The ids of the orders that declare the dependency `p`, in input order. -/
def hijos (os : List Orden) (p : String) : List String :=
  (os.filter (fun o => o.declarada = some p)).map (fun o => o.id)

/-- The number of orders with id `k` that declare a dependency. -/
def grado (os : List Orden) (k : String) : Nat :=
  os.countP (fun o => o.id = k ∧ o.declarada.isSome)

/-- The keys of a map with keys `claves` after `set` has been called with
each key of the list in turn. -/
def agregarClaves : List String → List String → List String
  | claves, [] => claves
  | claves, k :: resto =>
    agregarClaves (if k ∈ claves then claves else claves ++ [k]) resto

/-- The distinct ids of the input, each at its first occurrence: the keys of
`adjList` and `inDegree`. -/
def clavesDe (os : List Orden) : List String := agregarClaves [] (ids os)

/-- The distinct ids for which no order declares a dependency, in input
order. -/
def raices (os : List Orden) : List String :=
  (clavesDe os).filter (fun k => grado os k = 0)

/-- The order with id `a` declares the dependency `b`. -/
def DependeDe (os : List Orden) (a b : String) : Prop :=
  ∃ o ∈ os, o.id = a ∧ o.declarada = some b

/-- The dependency relation has a cycle: some id reaches itself by following
one or more dependency links. -/
def TieneCiclo (os : List Orden) : Prop :=
  ∃ a, Relation.TransGen (DependeDe os) a a

/-- Every declared dependency is the id of some order of the input. -/
def ReferenciasValidas (os : List Orden) : Prop :=
  ∀ o ∈ os, ∀ d, o.declarada = some d → d ∈ ids os

instance decidableReferenciasValidas (os : List Orden) : Decidable (ReferenciasValidas os) :=
  decidable_of_iff (∀ o ∈ os, ∀ d ∈ o.declarada, d ∈ ids os) Iff.rfl

/-- The number of orders with id `k` whose declared dependency is in the list
`plan`: the prerequisites of `k` that are already planned. -/
def resueltas (os : List Orden) (plan : List String) (k : String) : Nat :=
  os.countP (fun o => o.id = k ∧ ∃ d ∈ plan, o.declarada = some d)

/-- The invariant of the `while` loop, at the start of each iteration, for the
queue, the in-degrees and the plan built so far. -/
structure Invariante (os : List Orden) (queue : List String) (deg : Mapa Int)
    (plan : List String) : Prop where
  /-- No id is planned or queued twice. -/
  nodup : (plan ++ queue).Nodup
  /-- Only ids of the input are planned or queued. -/
  sub : ∀ x ∈ plan ++ queue, x ∈ clavesDe os
  /-- The keys of `inDegree` are the distinct ids. -/
  claves : Mapa.claves deg = clavesDe os
  /-- The in-degree of `k` is the number of its prerequisites not yet planned. -/
  grados : ∀ k ∈ clavesDe os,
    Mapa.get deg k = some ((grado os k : Int) - (resueltas os plan k : Int))
  /-- The ids planned or queued are those with all prerequisites planned. -/
  listas : ∀ k ∈ clavesDe os, (k ∈ plan ++ queue ↔ resueltas os plan k = grado os k)
  /-- Every dependency stands before the ids that declare it. -/
  orden : ∀ A x B, plan ++ queue = A ++ x :: B →
    ∀ o ∈ os, o.id = x → ∀ d, o.declarada = some d → d ∈ A
  /-- With distinct ids, the orders that declare a planned dependency stand in
  input order. -/
  hermanos : (ids os).Nodup → ∀ p ∈ plan, (hijos os p).Sublist (plan ++ queue)

/-- What the loop has established when it ends, for the plan `final`. -/
structure PlanDelBucle (os : List Orden) (final : List String) : Prop where
  /-- No id is planned twice. -/
  nodup : final.Nodup
  /-- Only ids of the input are planned. -/
  sub : ∀ x ∈ final, x ∈ ids os
  /-- An id is planned exactly when all the dependencies declared for it are. -/
  listas : ∀ k ∈ ids os,
    (k ∈ final ↔ ∀ o ∈ os, o.id = k → ∀ d, o.declarada = some d → d ∈ final)
  /-- Every dependency stands before the ids that declare it. -/
  orden : ∀ A x B, final = A ++ x :: B →
    ∀ o ∈ os, o.id = x → ∀ d, o.declarada = some d → d ∈ A
  /-- With distinct ids, the orders that declare a planned dependency stand in
  input order. -/
  hermanos : (ids os).Nodup → ∀ p ∈ final, (hijos os p).Sublist final
  /-- The plan begins with the ids that have no dependency. -/
  raices : raices os <+: final

/-- The first order of the list whose declared dependency is not an order id. -/
def primeraInvalida (os : List Orden) : Option Orden :=
  os.find? (fun o => match o.declarada with
    | some d => decide (d ∉ ids os)
    | none => false)

/-- The chain of the ids `xs` after `previa`: each id paired with the
dependency it declares, which is the id before it (and `previa` for the
first). -/
def cadena : Option String → List String → List (String × Option String)
  | _, [] => []
  | previa, x :: resto => (x, previa) :: cadena (some x) resto

/-! ## The interface contract of the specification -/

/-- The message of the reference error as the specification's interface
contract words it. -/
def mensajeReferenciaContrato (dep id : String) : String :=
  "Dependency '" ++ dep ++ "' for order '" ++ id ++ "' does not exist."

/-- The message of the cycle error as the specification's interface contract
words it. -/
def mensajeCircularContrato : String :=
  "Circular dependency detected. Cannot generate a valid production plan."

/-- The input with every empty-string `dependencia` replaced by an absent
one. -/
def sinVacias (os : List Orden) : List Orden :=
  os.map (fun o => if o.dependencia = some "" then { o with dependencia := none } else o)

/-! ## The loop, step by step -/

/-- Lines 20-43: the maps `adjList` and `inDegree` of the input, or the
reference error. -/
def grafo (os : List Orden) : Except String (Mapa (List String) × Mapa Int) :=
  construir os (ids os) (inicializar os [] []).1 (inicializar os [] []).2

/-- A state of lines 56-72. `pendientes` are the successors of the order just
planned that the `for` of line 64 has still to visit; it is empty at the head
of the `while`. -/
structure Estado where
  pendientes : List String
  queue : List String
  inDegree : Mapa Int
  planFinal : List String

/-- One step of lines 56-72. With successors pending, one iteration of the
`for` (lines 65-69). Otherwise the start of one iteration of the `while`
(lines 58-62): the head of the queue is planned and its successors become
pending. With nothing pending and an empty queue the loop has ended. -/
def paso (adjList : Mapa (List String)) : Estado → Option Estado
  | ⟨siguiente :: resto, queue, inDegree, planFinal⟩ =>
    let inDegree1 := Mapa.modificar inDegree siguiente (fun g => g - 1)
    if Mapa.get inDegree1 siguiente = some 0 then
      some ⟨resto, queue ++ [siguiente], inDegree1, planFinal⟩
    else
      some ⟨resto, queue, inDegree1, planFinal⟩
  | ⟨[], ordenActualId :: resto, inDegree, planFinal⟩ =>
    match Mapa.get adjList ordenActualId with
    | some ordenesSiguientes =>
      some ⟨ordenesSiguientes, resto, inDegree, planFinal ++ [ordenActualId]⟩
    | none => some ⟨[], resto, inDegree, planFinal ++ [ordenActualId]⟩
  | ⟨[], [], _, _⟩ => none

/-- The state `t` is reached from `s` by zero or more steps. -/
def Alcanza (adjList : Mapa (List String)) (s t : Estado) : Prop :=
  Relation.ReflTransGen (fun a b => paso adjList a = some b) s t

/-- The state in which the `while` is entered. -/
def estadoInicial (inDegree : Mapa Int) : Estado :=
  ⟨[], colaInicial inDegree, inDegree, []⟩

/-- The state is inside an iteration of the `while` that was entered with the
invariant: the order `a` has been planned and the successors `hecho` of it
have been visited. -/
def EnCurso (os : List Orden) (s : Estado) : Prop :=
  ∃ a resto deg plan hecho, Invariante os (a :: resto) deg plan ∧
    hijos os a = hecho ++ s.pendientes ∧
    s.queue = (procesarSiguientes hecho deg resto).2 ∧
    s.inDegree = (procesarSiguientes hecho deg resto).1 ∧
    s.planFinal = plan ++ [a]

/-- The invariant of the states of the loop: at the head of the `while` the
invariant of the loop, and inside an iteration `EnCurso`. -/
def InvarianteEstado (os : List Orden) (s : Estado) : Prop :=
  (s.pendientes = [] ∧ Invariante os s.queue s.inDegree s.planFinal) ∨ EnCurso os s

/-! ## The levels of the dependency forest -/

/-- The levels of the dependency forest. Level `0` is the list of the ids of
the orders without dependency, in input order; level `k + 1` is the
concatenation, over the ids `p` of level `k` in order, of the ids of the
orders whose dependency is `p`, in input order. -/
def nivel (os : List Orden) : Nat → List String
  | 0 => (os.filter (fun o => o.declarada = none)).map (fun o => o.id)
  | k + 1 => (nivel os k).flatMap (hijos os)

/-- The levels of the forest below the ids of the list `inicio`. -/
def nivelDesde (os : List Orden) (inicio : List String) : Nat → List String
  | 0 => inicio
  | k + 1 => (nivelDesde os inicio k).flatMap (hijos os)

/-- The loop of lines 56-72 when every planned order pushes all its
successors on the queue: the ids in the order they are planned, and `none`
when the fuel runs out first. -/
def recorrerCola (os : List Orden) : Nat → List String → Option (List String)
  | _, [] => some []
  | 0, _ :: _ => none
  | fuel + 1, a :: resto => (recorrerCola os fuel (resto ++ hijos os a)).map (fun r => a :: r)

/-! ## Maps -/

theorem Mapa.get_set {V : Type} (m : Mapa V) (k : String) (v : V) (c : String) :
    Mapa.get (Mapa.set m k v) c = if k = c then some v else Mapa.get m c := by
  induction m with
  | nil => simp [Mapa.set, Mapa.get]
  | cons e resto ih =>
    obtain ⟨a, w⟩ := e
    by_cases h : a = k
    · subst h
      by_cases h2 : a = c <;> simp [Mapa.set, Mapa.get, h2]
    · by_cases h2 : a = c
      · subst h2
        have h3 : ¬ k = a := fun h4 => h h4.symm
        simp [Mapa.set, Mapa.get, h, h3]
      · simp [Mapa.set, Mapa.get, h, h2, ih]

theorem Mapa.claves_set {V : Type} (m : Mapa V) (k : String) (v : V) :
    Mapa.claves (Mapa.set m k v) =
      if k ∈ Mapa.claves m then Mapa.claves m else Mapa.claves m ++ [k] := by
  induction m with
  | nil => simp [Mapa.set, Mapa.claves]
  | cons e resto ih =>
    obtain ⟨a, w⟩ := e
    by_cases h : a = k
    · subst h
      simp [Mapa.set, Mapa.claves]
    · have h3 : ¬ k = a := fun h4 => h h4.symm
      simp only [Mapa.claves] at ih
      by_cases h2 : k ∈ List.map Prod.fst resto
      · simp [Mapa.set, Mapa.claves, h, h3, ih, h2]
      · simp [Mapa.set, Mapa.claves, h, h3, ih, h2]

theorem Mapa.get_modificar {V : Type} (m : Mapa V) (k : String) (f : V → V) (c : String) :
    Mapa.get (Mapa.modificar m k f) c =
      if k = c then (Mapa.get m k).map f else Mapa.get m c := by
  induction m with
  | nil => simp [Mapa.modificar, Mapa.get]
  | cons e resto ih =>
    obtain ⟨a, w⟩ := e
    by_cases h : a = k
    · subst h
      by_cases h2 : a = c <;> simp [Mapa.modificar, Mapa.get, h2]
    · by_cases h2 : a = c
      · subst h2
        have h3 : ¬ k = a := fun h4 => h h4.symm
        simp [Mapa.modificar, Mapa.get, h, h3]
      · simp [Mapa.modificar, Mapa.get, h, h2, ih]

theorem Mapa.claves_modificar {V : Type} (m : Mapa V) (k : String) (f : V → V) :
    Mapa.claves (Mapa.modificar m k f) = Mapa.claves m := by
  induction m with
  | nil => simp [Mapa.modificar, Mapa.claves]
  | cons e resto ih =>
    obtain ⟨a, w⟩ := e
    simp only [Mapa.claves] at ih
    by_cases h : a = k <;> simp [Mapa.modificar, Mapa.claves, h, ih]

theorem Mapa.get_eq_none_iff {V : Type} (m : Mapa V) (k : String) :
    Mapa.get m k = none ↔ k ∉ Mapa.claves m := by
  induction m with
  | nil => simp [Mapa.get, Mapa.claves]
  | cons e resto ih =>
    obtain ⟨a, w⟩ := e
    simp only [Mapa.claves] at ih
    by_cases h : a = k
    · simp [Mapa.get, Mapa.claves, h]
    · have h3 : ¬ k = a := fun h4 => h h4.symm
      simp [Mapa.get, Mapa.claves, h, h3, ih]

theorem Mapa.get_isSome_of_mem {V : Type} (m : Mapa V) (k : String)
    (h : k ∈ Mapa.claves m) : ∃ v, Mapa.get m k = some v := by
  cases hg : Mapa.get m k with
  | none => exact absurd h ((Mapa.get_eq_none_iff m k).1 hg)
  | some v => exact ⟨v, rfl⟩

theorem Mapa.mem_of_get {V : Type} (m : Mapa V) (k : String) (v : V)
    (h : Mapa.get m k = some v) : (k, v) ∈ m := by
  induction m with
  | nil => simp [Mapa.get] at h
  | cons e resto ih =>
    obtain ⟨a, w⟩ := e
    by_cases h2 : a = k
    · simp [Mapa.get, h2] at h
      simp [h2, h]
    · simp [Mapa.get, h2] at h
      exact List.mem_cons_of_mem _ (ih h)

theorem Mapa.mem_set {V : Type} (m : Mapa V) (k : String) (v : V) (e : String × V)
    (h : e ∈ Mapa.set m k v) : e ∈ m ∨ e = (k, v) := by
  induction m with
  | nil => simpa [Mapa.set] using h
  | cons x resto ih =>
    obtain ⟨a, w⟩ := x
    by_cases h2 : a = k
    · simp [Mapa.set, h2] at h
      rcases h with h | h
      · exact Or.inr h
      · exact Or.inl (List.mem_cons_of_mem _ h)
    · simp [Mapa.set, h2] at h
      rcases h with h | h
      · exact Or.inl (by simp [h])
      · rcases ih h with h3 | h3
        · exact Or.inl (List.mem_cons_of_mem _ h3)
        · exact Or.inr h3

/-! ## The keys -/

theorem mem_agregarClaves (l claves : List String) (x : String) :
    x ∈ agregarClaves claves l ↔ x ∈ claves ∨ x ∈ l := by
  induction l generalizing claves with
  | nil => simp [agregarClaves]
  | cons k resto ih =>
    simp only [agregarClaves, ih, List.mem_cons]
    by_cases h : k ∈ claves
    · simp only [h, if_true]
      constructor
      · rintro (h1 | h1)
        · exact Or.inl h1
        · exact Or.inr (Or.inr h1)
      · rintro (h1 | h1 | h1)
        · exact Or.inl h1
        · exact Or.inl (h1 ▸ h)
        · exact Or.inr h1
    · simp only [h, if_false, List.mem_append, List.mem_singleton]
      tauto

theorem nodup_agregarClaves (l claves : List String) (h : claves.Nodup) :
    (agregarClaves claves l).Nodup := by
  induction l generalizing claves with
  | nil => simpa [agregarClaves] using h
  | cons k resto ih =>
    simp only [agregarClaves]
    apply ih
    by_cases h2 : k ∈ claves
    · simpa [h2] using h
    · simp only [h2, if_false]
      exact List.Nodup.append h (List.nodup_singleton k) (by simpa using h2)

theorem agregarClaves_of_nodup (l claves : List String) (h : l.Nodup)
    (hd : ∀ x ∈ l, x ∉ claves) : agregarClaves claves l = claves ++ l := by
  induction l generalizing claves with
  | nil => simp [agregarClaves]
  | cons k resto ih =>
    have hk : k ∉ claves := hd k (List.mem_cons_self _ _)
    simp only [agregarClaves, hk, if_false]
    rw [ih _ (List.nodup_cons.1 h).2]
    · simp
    · intro x hx
      simp only [List.mem_append, List.mem_singleton, not_or]
      refine ⟨hd x (List.mem_cons_of_mem _ hx), ?_⟩
      rintro rfl
      exact (List.nodup_cons.1 h).1 hx

theorem length_agregarClaves (l claves : List String) :
    (agregarClaves claves l).length ≤ claves.length + l.length := by
  induction l generalizing claves with
  | nil => simp [agregarClaves]
  | cons k resto ih =>
    simp only [agregarClaves]
    refine le_trans (ih _) ?_
    by_cases h2 : k ∈ claves
    · simp [h2]
    · simp [h2]; omega

theorem mem_clavesDe (os : List Orden) (x : String) : x ∈ clavesDe os ↔ x ∈ ids os := by
  simp [clavesDe, mem_agregarClaves]

theorem nodup_clavesDe (os : List Orden) : (clavesDe os).Nodup :=
  nodup_agregarClaves _ _ List.nodup_nil

theorem clavesDe_of_nodup (os : List Orden) (h : (ids os).Nodup) : clavesDe os = ids os := by
  simp [clavesDe, agregarClaves_of_nodup _ _ h]

theorem length_clavesDe_le (os : List Orden) : (clavesDe os).length ≤ os.length := by
  have := length_agregarClaves (ids os) []
  simpa [clavesDe, ids] using this

/-- When the distinct ids are as many as the orders, the ids are pairwise
distinct. -/
theorem nodup_ids_of_length (os : List Orden) (h : os.length ≤ (clavesDe os).length) :
    (ids os).Nodup := by
  have hsub : clavesDe os ⊆ ids os := fun x hx => (mem_clavesDe os x).1 hx
  have hsp : (clavesDe os).Subperm (ids os) := List.subperm_of_subset (nodup_clavesDe os) hsub
  have hlen : (ids os).length ≤ (clavesDe os).length := by simpa [ids] using h
  have hp : (clavesDe os).Perm (ids os) := hsp.perm_of_length_le hlen
  exact hp.nodup_iff.1 (nodup_clavesDe os)

/-! ## Construction of the graph -/

theorem inicializar_claves (os : List Orden) (adj : Mapa (List String)) (deg : Mapa Int) :
    Mapa.claves (inicializar os adj deg).1 = agregarClaves (Mapa.claves adj) (ids os) ∧
    Mapa.claves (inicializar os adj deg).2 = agregarClaves (Mapa.claves deg) (ids os) := by
  induction os generalizing adj deg with
  | nil => simp [inicializar, ids, agregarClaves]
  | cons o resto ih =>
    simp only [inicializar, ids, List.map_cons, agregarClaves]
    have := ih (Mapa.set adj o.id []) (Mapa.set deg o.id 0)
    simpa [Mapa.claves_set, ids] using this

theorem inicializar_valores (os : List Orden) (adj : Mapa (List String)) (deg : Mapa Int)
    (ha : ∀ e ∈ adj, e.2 = []) (hd : ∀ e ∈ deg, e.2 = 0) :
    (∀ e ∈ (inicializar os adj deg).1, e.2 = []) ∧
    (∀ e ∈ (inicializar os adj deg).2, e.2 = 0) := by
  induction os generalizing adj deg with
  | nil => exact ⟨ha, hd⟩
  | cons o resto ih =>
    simp only [inicializar]
    apply ih
    · intro e he
      rcases Mapa.mem_set _ _ _ _ he with h | h
      · exact ha e h
      · simp [h]
    · intro e he
      rcases Mapa.mem_set _ _ _ _ he with h | h
      · exact hd e h
      · simp [h]

/-- After lines 24-27 both maps have the distinct ids as keys, with value `[]`
and `0`. -/
theorem inicializar_spec (os : List Orden) :
    Mapa.claves (inicializar os [] []).1 = clavesDe os ∧
    Mapa.claves (inicializar os [] []).2 = clavesDe os ∧
    (∀ k ∈ clavesDe os, Mapa.get (inicializar os [] []).1 k = some []) ∧
    (∀ k ∈ clavesDe os, Mapa.get (inicializar os [] []).2 k = some 0) := by
  have hc := inicializar_claves os [] []
  have hv := inicializar_valores os [] [] (by simp) (by simp)
  have hc1 : Mapa.claves (inicializar os [] []).1 = clavesDe os := by
    simpa [clavesDe, Mapa.claves] using hc.1
  have hc2 : Mapa.claves (inicializar os [] []).2 = clavesDe os := by
    simpa [clavesDe, Mapa.claves] using hc.2
  refine ⟨hc1, hc2, ?_, ?_⟩
  · intro k hk
    obtain ⟨v, hv1⟩ := Mapa.get_isSome_of_mem _ k (hc1 ▸ hk)
    have := hv.1 _ (Mapa.mem_of_get _ _ _ hv1)
    simp only at this
    rw [hv1, this]
  · intro k hk
    obtain ⟨v, hv1⟩ := Mapa.get_isSome_of_mem _ k (hc2 ▸ hk)
    have := hv.2 _ (Mapa.mem_of_get _ _ _ hv1)
    simp only at this
    rw [hv1, this]

theorem hijos_cons (o : Orden) (os : List Orden) (p : String) :
    hijos (o :: os) p = if o.declarada = some p then o.id :: hijos os p else hijos os p := by
  by_cases h : o.declarada = some p <;> simp [hijos, List.filter_cons, h]

theorem grado_cons (o : Orden) (os : List Orden) (k : String) :
    grado (o :: os) k =
      if o.id = k ∧ o.declarada.isSome then grado os k + 1 else grado os k := by
  by_cases h : o.id = k ∧ o.declarada.isSome
  · simp only [grado, List.countP_cons, h, if_true]
    simp
  · simp only [grado, List.countP_cons, h, if_false]
    simp [h]

/-- Lines 29-43 when every declared dependency is an order id: no error, the
keys are kept, the successors of `k` grow by `hijos os k` and the in-degree of
`k` by `grado os k`. -/
theorem construir_ok (os : List Orden) (ordenIds : List String)
    (adj : Mapa (List String)) (deg : Mapa Int)
    (hv : ∀ o ∈ os, ∀ d, o.declarada = some d → d ∈ ordenIds) :
    ∃ adj1 deg1, construir os ordenIds adj deg = .ok (adj1, deg1) ∧
      Mapa.claves adj1 = Mapa.claves adj ∧ Mapa.claves deg1 = Mapa.claves deg ∧
      (∀ k, Mapa.get adj1 k = (Mapa.get adj k).map (fun l => l ++ hijos os k)) ∧
      (∀ k, Mapa.get deg1 k = (Mapa.get deg k).map (fun g => g + (grado os k : Int))) := by
  induction os generalizing adj deg with
  | nil =>
    refine ⟨adj, deg, rfl, rfl, rfl, ?_, ?_⟩
    · intro k; cases Mapa.get adj k <;> simp [hijos]
    · intro k; cases Mapa.get deg k <;> simp [grado]
  | cons o resto ih =>
    have hv2 : ∀ o1 ∈ resto, ∀ d, o1.declarada = some d → d ∈ ordenIds :=
      fun o1 h1 => hv o1 (List.mem_cons_of_mem _ h1)
    cases hd : o.declarada with
    | none =>
      obtain ⟨adj1, deg1, h1, h2, h3, h4, h5⟩ := ih adj deg hv2
      refine ⟨adj1, deg1, ?_, h2, h3, ?_, ?_⟩
      · simp only [construir, hd]; exact h1
      · intro k; rw [h4 k, hijos_cons]; simp [hd]
      · intro k; rw [h5 k, grado_cons]; simp [hd]
    | some d =>
      have hmem : d ∈ ordenIds := hv o (List.mem_cons_self _ _) d hd
      obtain ⟨adj1, deg1, h1, h2, h3, h4, h5⟩ :=
        ih (Mapa.modificar adj d (fun vecinas => vecinas ++ [o.id]))
          (Mapa.modificar deg o.id (fun g => g + 1)) hv2
      refine ⟨adj1, deg1, ?_, ?_, ?_, ?_, ?_⟩
      · simp only [construir, hd, hmem, if_true]; exact h1
      · rw [h2, Mapa.claves_modificar]
      · rw [h3, Mapa.claves_modificar]
      · intro k
        rw [h4 k, Mapa.get_modificar, hijos_cons, hd]
        by_cases hk : d = k
        · subst hk
          cases Mapa.get adj d <;> simp
        · have hk2 : ¬ some d = some k := fun h => hk (Option.some.inj h)
          simp [hk, hk2]
      · intro k
        rw [h5 k, Mapa.get_modificar, grado_cons, hd]
        by_cases hk : o.id = k
        · subst hk
          cases Mapa.get deg o.id with
          | none => simp
          | some g => simp; omega
        · simp [hk]

/-- Lines 29-43 at the first order whose declared dependency is not an order
id: the reference error for that order and that dependency. -/
theorem construir_error (pre : List Orden) (o : Orden) (suf : List Orden) (d : String)
    (ordenIds : List String) (adj : Mapa (List String)) (deg : Mapa Int)
    (hv : ∀ o1 ∈ pre, ∀ d1, o1.declarada = some d1 → d1 ∈ ordenIds)
    (hd : o.declarada = some d) (hn : d ∉ ordenIds) :
    construir (pre ++ o :: suf) ordenIds adj deg = .error (mensajeReferencia d o.id) := by
  induction pre generalizing adj deg with
  | nil => simp [construir, hd, hn]
  | cons o1 resto ih =>
    have hv2 : ∀ o2 ∈ resto, ∀ d1, o2.declarada = some d1 → d1 ∈ ordenIds :=
      fun o2 h2 => hv o2 (List.mem_cons_of_mem _ h2)
    cases hd1 : o1.declarada with
    | none => simp only [List.cons_append, construir, hd1]; exact ih _ _ hv2
    | some d1 =>
      have hmem : d1 ∈ ordenIds := hv o1 (List.mem_cons_self _ _) d1 hd1
      simp only [List.cons_append, construir, hd1, hmem, if_true]
      exact ih _ _ hv2

/-- The maps after lines 20-43 of an input whose references are valid. -/
theorem grafo_spec (os : List Orden) (hv : ReferenciasValidas os) :
    ∃ adj deg, construir os (ids os) (inicializar os [] []).1 (inicializar os [] []).2
        = .ok (adj, deg) ∧
      Mapa.claves deg = clavesDe os ∧
      (∀ k ∈ clavesDe os, Mapa.get adj k = some (hijos os k)) ∧
      (∀ k, k ∉ clavesDe os → Mapa.get adj k = none) ∧
      (∀ k ∈ clavesDe os, Mapa.get deg k = some (grado os k : Int)) := by
  obtain ⟨hc1, hc2, hg1, hg2⟩ := inicializar_spec os
  obtain ⟨adj, deg, h1, h2, h3, h4, h5⟩ :=
    construir_ok os (ids os) (inicializar os [] []).1 (inicializar os [] []).2 hv
  refine ⟨adj, deg, h1, by rw [h3, hc2], ?_, ?_, ?_⟩
  · intro k hk
    rw [h4 k, hg1 k hk]; simp
  · intro k hk
    rw [Mapa.get_eq_none_iff, h2, hc1]; exact hk
  · intro k hk
    rw [h5 k, hg2 k hk]; simp

/-! ## The loop over the successors -/

/-- Lines 64-70 on any state: the keys are kept, the in-degree of `k` falls by
the number of occurrences of `k` among the successors, and the ids pushed on
the queue are those whose in-degree passes through `0`, each once, in the
order of the successors. -/
theorem procesarSiguientes_spec (sig : List String) (deg : Mapa Int) (queue : List String) :
    ∃ empujadas, (procesarSiguientes sig deg queue).2 = queue ++ empujadas ∧
      Mapa.claves (procesarSiguientes sig deg queue).1 = Mapa.claves deg ∧
      (∀ k, Mapa.get (procesarSiguientes sig deg queue).1 k
          = (Mapa.get deg k).map (fun g => g - (sig.count k : Int))) ∧
      empujadas.Sublist sig ∧ empujadas.Nodup ∧
      (∀ k, k ∈ empujadas ↔ ∃ g, Mapa.get deg k = some g ∧ 1 ≤ g ∧ g ≤ (sig.count k : Int)) := by
  induction sig generalizing deg queue with
  | nil =>
    refine ⟨[], by simp [procesarSiguientes], rfl, ?_, List.Sublist.refl _, List.nodup_nil, ?_⟩
    · intro k; cases hg : Mapa.get deg k <;> simp [procesarSiguientes, hg]
    · intro k
      simp only [List.not_mem_nil, List.count_nil, Nat.cast_zero, false_iff, not_exists, not_and]
      intro g _ h1 h2
      omega
  | cons s resto ih =>
    have hcount : ∀ k, ((s :: resto).count k : Int)
        = (resto.count k : Int) + if s = k then 1 else 0 := by
      intro k
      by_cases hk : s = k
      · subst hk; simp
      · simp [List.count_cons, hk]
    have hget : ∀ k, Mapa.get (Mapa.modificar deg s (fun g => g - 1)) k
        = if s = k then (Mapa.get deg s).map (fun g => g - 1) else Mapa.get deg k :=
      fun k => Mapa.get_modificar deg s _ k
    by_cases h0 : Mapa.get (Mapa.modificar deg s (fun g => g - 1)) s = some 0
    · obtain ⟨e1, h1, h2, h3, h4, h5, h6⟩ :=
        ih (Mapa.modificar deg s (fun g => g - 1)) (queue ++ [s])
      have hs1 : Mapa.get deg s = some 1 := by
        rw [hget s] at h0
        simp only [if_true] at h0
        cases hg : Mapa.get deg s with
        | none => simp [hg] at h0
        | some g =>
          simp only [hg, Option.map_some', Option.some.injEq] at h0
          have : g = 1 := by omega
          rw [this]
      have hns : s ∉ e1 := by
        intro hmem
        obtain ⟨g, hg1, hg2, _⟩ := (h6 s).1 hmem
        rw [h0] at hg1
        have : (0 : Int) = g := Option.some.inj hg1
        omega
      refine ⟨s :: e1, ?_, ?_, ?_, ?_, ?_, ?_⟩
      · simp only [procesarSiguientes, h0, if_true, h1]; simp
      · simp only [procesarSiguientes, h0, if_true, h2, Mapa.claves_modificar]
      · intro k
        simp only [procesarSiguientes, h0, if_true]
        rw [h3 k, hget k, hcount k]
        by_cases hk : s = k
        · subst hk
          simp only [if_true, hs1, Option.map_some', Option.some.injEq]
          omega
        · simp only [hk, if_false]
          cases Mapa.get deg k <;> simp
      · exact h4.cons₂ s
      · exact List.nodup_cons.2 ⟨hns, h5⟩
      · intro k
        rw [List.mem_cons, h6 k, hget k, hcount k]
        by_cases hk : s = k
        · subst hk
          simp only [if_true, hs1, true_or, true_iff]
          refine ⟨1, rfl, le_refl _, ?_⟩
          have : (0 : Int) ≤ (resto.count s : Int) := Int.natCast_nonneg _
          omega
        · have hk2 : ¬ k = s := fun h => hk h.symm
          simp only [hk, hk2, if_false, false_or, add_zero]
    · obtain ⟨e1, h1, h2, h3, h4, h5, h6⟩ :=
        ih (Mapa.modificar deg s (fun g => g - 1)) queue
      refine ⟨e1, ?_, ?_, ?_, ?_, h5, ?_⟩
      · simp only [procesarSiguientes, h0, if_false, h1]
      · simp only [procesarSiguientes, h0, if_false, h2, Mapa.claves_modificar]
      · intro k
        simp only [procesarSiguientes, h0, if_false]
        rw [h3 k, hget k, hcount k]
        by_cases hk : s = k
        · subst hk
          simp only [if_true]
          cases Mapa.get deg s with
          | none => simp
          | some g => simp only [Option.map_some', Option.some.injEq]; omega
        · simp only [hk, if_false]
          cases Mapa.get deg k <;> simp
      · exact h4.cons s
      · intro k
        rw [h6 k, hget k, hcount k]
        by_cases hk : s = k
        · subst hk
          rw [hget s] at h0
          simp only [if_true] at h0 ⊢
          cases hg : Mapa.get deg s with
          | none => simp
          | some g =>
            simp only [hg, Option.map_some', Option.some.injEq] at h0
            constructor
            · rintro ⟨g1, hg1, hg2, hg3⟩
              have hg4 : g - 1 = g1 := by simpa using hg1
              exact ⟨g, rfl, by omega, by omega⟩
            · rintro ⟨g2, hg1, hg2, hg3⟩
              have hg4 : g = g2 := by simpa using hg1
              exact ⟨g - 1, by simp, by omega, by omega⟩
        · simp only [hk, if_false, add_zero]

/-! ## Counting prerequisites -/

theorem countP_add_of_disjoint {α : Type} (a b c : α → Bool) (l : List α)
    (hab : ∀ x ∈ l, ¬ (a x = true ∧ b x = true))
    (hc : ∀ x ∈ l, (c x = true ↔ a x = true ∨ b x = true)) :
    l.countP a + l.countP b = l.countP c := by
  induction l with
  | nil => simp
  | cons x l ih =>
    have ih1 := ih (fun y hy => hab y (List.mem_cons_of_mem _ hy))
      (fun y hy => hc y (List.mem_cons_of_mem _ hy))
    have h1 := hab x (List.mem_cons_self _ _)
    have h2 := hc x (List.mem_cons_self _ _)
    simp only [List.countP_cons]
    cases ha : a x <;> cases hb : b x <;> cases hcx : c x <;>
      simp [ha, hb, hcx] at h1 h2 ⊢ <;> omega

theorem countP_eq_iff_of_imp {α : Type} (p q : α → Bool) (l : List α)
    (hpq : ∀ x ∈ l, p x = true → q x = true) :
    l.countP p = l.countP q ↔ ∀ x ∈ l, q x = true → p x = true := by
  induction l with
  | nil => simp
  | cons x l ih =>
    have ih1 := ih (fun y hy => hpq y (List.mem_cons_of_mem _ hy))
    have hle : l.countP p ≤ l.countP q :=
      List.countP_mono_left (fun y hy => hpq y (List.mem_cons_of_mem _ hy))
    have h1 := hpq x (List.mem_cons_self _ _)
    simp only [List.countP_cons, List.mem_cons, forall_eq_or_imp]
    cases hp : p x <;> cases hq : q x <;> simp [hp, hq] at h1 ⊢
    · exact ih1
    · omega
    · exact ih1

theorem count_hijos (os : List Orden) (p k : String) :
    (hijos os p).count k = os.countP (fun o => o.id = k ∧ o.declarada = some p) := by
  induction os with
  | nil => simp [hijos]
  | cons o os ih =>
    rw [hijos_cons, List.countP_cons]
    by_cases h1 : o.declarada = some p
    · by_cases h2 : o.id = k
      · simp [h1, h2, ih]
      · simp [h1, h2, ih, List.count_cons]
    · simp [h1, ih]

theorem resueltas_nil (os : List Orden) (k : String) : resueltas os [] k = 0 := by
  simp [resueltas]

theorem resueltas_le_grado (os : List Orden) (plan : List String) (k : String) :
    resueltas os plan k ≤ grado os k := by
  apply List.countP_mono_left
  intro o _ h
  simp only [decide_eq_true_eq] at h ⊢
  obtain ⟨h1, d, _, h3⟩ := h
  exact ⟨h1, by simp [h3]⟩

/-- All the prerequisites of `k` are planned exactly when every dependency
declared by an order with id `k` is in the plan. -/
theorem resueltas_eq_grado_iff (os : List Orden) (plan : List String) (k : String) :
    resueltas os plan k = grado os k ↔
      ∀ o ∈ os, o.id = k → ∀ d, o.declarada = some d → d ∈ plan := by
  unfold resueltas grado
  rw [countP_eq_iff_of_imp]
  · constructor
    · intro h o ho hk d hd
      have := h o ho (by simp [hk, hd])
      simp only [decide_eq_true_eq] at this
      obtain ⟨_, d1, hd1, hd2⟩ := this
      rw [hd] at hd2
      cases hd2
      exact hd1
    · intro h o ho hq
      simp only [decide_eq_true_eq] at hq ⊢
      obtain ⟨hk, hs⟩ := hq
      obtain ⟨d, hd⟩ := Option.isSome_iff_exists.1 hs
      exact ⟨hk, d, h o ho hk d hd, hd⟩
  · intro o _ h
    simp only [decide_eq_true_eq] at h ⊢
    obtain ⟨h1, d, _, h3⟩ := h
    exact ⟨h1, by simp [h3]⟩

theorem resueltas_append (os : List Orden) (plan : List String) (a k : String)
    (ha : a ∉ plan) :
    resueltas os (plan ++ [a]) k = resueltas os plan k + (hijos os a).count k := by
  rw [count_hijos]
  unfold resueltas
  symm
  apply countP_add_of_disjoint
  · intro o _ h
    simp only [decide_eq_true_eq] at h
    obtain ⟨⟨_, d, hd1, hd2⟩, _, h3⟩ := h
    rw [h3] at hd2
    cases hd2
    exact ha hd1
  · intro o _
    simp only [decide_eq_true_eq, List.mem_append, List.mem_singleton]
    constructor
    · rintro ⟨hk, d, hd1 | hd1, hd2⟩
      · exact Or.inl ⟨hk, d, hd1, hd2⟩
      · exact Or.inr ⟨hk, hd1 ▸ hd2⟩
    · rintro (⟨hk, d, hd1, hd2⟩ | ⟨hk, hd⟩)
      · exact ⟨hk, d, Or.inl hd1, hd2⟩
      · exact ⟨hk, a, Or.inr rfl, hd⟩

theorem grado_pos (os : List Orden) (o : Orden) (d : String) (ho : o ∈ os)
    (hd : o.declarada = some d) : 0 < grado os o.id := by
  unfold grado
  rw [List.countP_pos_iff]
  exact ⟨o, ho, by simp [hd]⟩

theorem mem_hijos (os : List Orden) (p x : String) :
    x ∈ hijos os p ↔ ∃ o ∈ os, o.id = x ∧ o.declarada = some p := by
  simp only [hijos, List.mem_map, List.mem_filter, decide_eq_true_eq]
  constructor
  · rintro ⟨o, ⟨h1, h2⟩, h3⟩
    exact ⟨o, h1, h3, h2⟩
  · rintro ⟨o, h1, h3, h2⟩
    exact ⟨o, ⟨h1, h2⟩, h3⟩

theorem hijos_sub_ids (os : List Orden) (p x : String) (h : x ∈ hijos os p) : x ∈ ids os := by
  obtain ⟨o, ho, hx, _⟩ := (mem_hijos os p x).1 h
  exact List.mem_map.2 ⟨o, ho, hx⟩

theorem hijos_sublist_ids (os : List Orden) (p : String) : (hijos os p).Sublist (ids os) :=
  (List.filter_sublist os).map _

theorem grado_le_one (os : List Orden) (k : String) (h : (ids os).Nodup) : grado os k ≤ 1 := by
  have h1 : grado os k ≤ os.countP (fun o => o.id = k) := by
    apply List.countP_mono_left
    intro o _ ho
    simp only [decide_eq_true_eq] at ho ⊢
    exact ho.1
  have h2 : os.countP (fun o => o.id = k) = (ids os).count k := by
    unfold ids
    rw [List.count, List.countP_map]
    apply List.countP_congr
    intro o _
    simp
  have h3 : (ids os).count k ≤ 1 := List.nodup_iff_count_le_one.1 h k
  omega

/-! ## The invariant of the loop -/

theorem colaInicial_eq (deg : Mapa Int) (h : (Mapa.claves deg).Nodup) :
    colaInicial deg = (Mapa.claves deg).filter (fun k => Mapa.get deg k = some 0) := by
  induction deg with
  | nil => simp [colaInicial, Mapa.claves]
  | cons e resto ih =>
    obtain ⟨c, v⟩ := e
    have hcl : Mapa.claves ((c, v) :: resto) = c :: Mapa.claves resto := rfl
    rw [hcl] at h
    have hnd := List.nodup_cons.1 h
    have ih1 := ih hnd.2
    have hrest : (Mapa.claves resto).filter (fun k => Mapa.get ((c, v) :: resto) k = some 0)
        = (Mapa.claves resto).filter (fun k => Mapa.get resto k = some 0) := by
      apply List.filter_congr
      intro k hk
      have hck : ¬ c = k := by
        rintro rfl
        exact hnd.1 hk
      simp [Mapa.get, hck]
    have hgc : Mapa.get ((c, v) :: resto) c = some v := by simp [Mapa.get]
    have hcola : colaInicial ((c, v) :: resto)
        = if v = 0 then c :: colaInicial resto else colaInicial resto := by
      by_cases hv : v = 0 <;> simp [colaInicial, List.filter_cons, hv]
    rw [hcl, List.filter_cons, hrest, ← ih1, hcola, hgc]
    by_cases hv : v = 0 <;> simp [hv]

/-- The invariant holds when the loop is entered. -/
theorem invariante_inicial (os : List Orden) (deg : Mapa Int)
    (hc : Mapa.claves deg = clavesDe os)
    (hg : ∀ k ∈ clavesDe os, Mapa.get deg k = some (grado os k : Int)) :
    Invariante os (colaInicial deg) deg [] := by
  have hq : colaInicial deg = (clavesDe os).filter (fun k => Mapa.get deg k = some 0) := by
    rw [colaInicial_eq deg (hc ▸ nodup_clavesDe os), hc]
  have hmem : ∀ k, k ∈ colaInicial deg ↔ k ∈ clavesDe os ∧ grado os k = 0 := by
    intro k
    rw [hq, List.mem_filter]
    constructor
    · rintro ⟨h1, h2⟩
      rw [hg k h1] at h2
      simp only [decide_eq_true_eq, Option.some.injEq] at h2
      exact ⟨h1, by omega⟩
    · rintro ⟨h1, h2⟩
      refine ⟨h1, ?_⟩
      rw [hg k h1, h2]
      simp
  refine ⟨?_, ?_, hc, ?_, ?_, ?_, ?_⟩
  · rw [List.nil_append, hq]
    exact (nodup_clavesDe os).filter _
  · intro x hx
    exact ((hmem x).1 (by simpa using hx)).1
  · intro k hk
    rw [hg k hk, resueltas_nil]
    simp
  · intro k hk
    rw [List.nil_append, hmem k, resueltas_nil]
    constructor
    · intro h; exact h.2.symm
    · intro h; exact ⟨hk, h.symm⟩
  · intro A x B hS o ho hx d hd
    have hxq : x ∈ colaInicial deg := by
      rw [List.nil_append] at hS
      rw [hS]; simp
    have h0 := ((hmem x).1 hxq).2
    have hpos := grado_pos os o d ho hd
    rw [hx] at hpos
    omega
  · intro _ p hp
    simp at hp

/-- One iteration of the loop keeps the invariant. The ids it pushes on the
queue are, when the ids of the input are distinct, the successors of the order
it plans. -/
theorem invariante_paso (os : List Orden) (a : String) (resto : List String)
    (deg : Mapa Int) (plan : List String) (hinv : Invariante os (a :: resto) deg plan) :
    Invariante os (procesarSiguientes (hijos os a) deg resto).2
        (procesarSiguientes (hijos os a) deg resto).1 (plan ++ [a]) ∧
      ∃ e, (procesarSiguientes (hijos os a) deg resto).2 = resto ++ e ∧
        ((ids os).Nodup → e = hijos os a) := by
  obtain ⟨e, he, hcl, hget, hsub, hnd, hmem⟩ := procesarSiguientes_spec (hijos os a) deg resto
  have hS : (plan ++ [a]) ++ (resto ++ e) = (plan ++ a :: resto) ++ e := by simp
  have hanp : a ∉ plan := by
    intro hap
    exact (List.nodup_append.1 hinv.nodup).2.2 hap (List.mem_cons_self _ _)
  have hres : ∀ k, resueltas os (plan ++ [a]) k
      = resueltas os plan k + (hijos os a).count k := fun k => resueltas_append os plan a k hanp
  have hle : ∀ k, resueltas os (plan ++ [a]) k ≤ grado os k :=
    fun k => resueltas_le_grado os _ k
  have hle0 : ∀ k, resueltas os plan k ≤ grado os k := fun k => resueltas_le_grado os _ k
  have heK : ∀ k ∈ e, k ∈ clavesDe os :=
    fun k hk => (mem_clavesDe os k).2 (hijos_sub_ids os a k (hsub.subset hk))
  have hechar : ∀ k ∈ clavesDe os, (k ∈ e ↔
      resueltas os plan k < grado os k ∧ resueltas os (plan ++ [a]) k = grado os k) := by
    intro k hk
    rw [hmem k, hinv.grados k hk]
    have h1 := hres k
    have h2 := hle k
    constructor
    · rintro ⟨g, hg, h3, h4⟩
      have h5 := Option.some.inj hg
      constructor <;> omega
    · rintro ⟨h3, h4⟩
      exact ⟨_, rfl, by omega, by omega⟩
  have hdeps : ∀ x ∈ e, ∀ o ∈ os, o.id = x → ∀ d, o.declarada = some d → d ∈ plan ++ [a] := by
    intro x hx
    exact (resueltas_eq_grado_iff os (plan ++ [a]) x).1 ((hechar x (heK x hx)).1 hx).2
  have heq : (ids os).Nodup → e = hijos os a := by
    intro hids
    have hsnd : (hijos os a).Nodup := (hijos_sublist_ids os a).nodup hids
    have hall : hijos os a ⊆ e := by
      intro x hx
      have hxK : x ∈ clavesDe os := (mem_clavesDe os x).2 (hijos_sub_ids os a x hx)
      rw [hechar x hxK]
      have h1 := hres x
      have h2 := hle x
      have h3 := grado_le_one os x hids
      have h4 : 0 < (hijos os a).count x := List.count_pos_iff.2 hx
      constructor <;> omega
    have hlen : (hijos os a).length ≤ e.length :=
      (List.subperm_of_subset hsnd hall).length_le
    exact hsub.eq_of_length_le hlen
  refine ⟨⟨?_, ?_, ?_, ?_, ?_, ?_, ?_⟩, e, he, heq⟩
  · rw [he, hS]
    refine List.Nodup.append hinv.nodup hnd ?_
    intro k hkS hke
    have h1 := (hinv.listas k (hinv.sub k hkS)).1 hkS
    have h2 := ((hechar k (heK k hke)).1 hke).1
    omega
  · intro x hx
    rw [he, hS, List.mem_append] at hx
    rcases hx with hx | hx
    · exact hinv.sub x hx
    · exact heK x hx
  · rw [hcl, hinv.claves]
  · intro k hk
    rw [hget k, hinv.grados k hk, hres k]
    simp only [Option.map_some', Option.some.injEq]
    push_cast
    omega
  · intro k hk
    rw [he, hS, List.mem_append, hinv.listas k hk, hechar k hk]
    have h1 := hres k
    have h2 := hle k
    have h3 := hle0 k
    constructor
    · rintro (h | h)
      · omega
      · exact h.2
    · intro h
      by_cases h4 : resueltas os plan k = grado os k
      · exact Or.inl h4
      · exact Or.inr ⟨by omega, h⟩
  · intro A x B hAB o ho hx d hd
    rw [he, hS] at hAB
    have hold : ∀ B1, plan ++ a :: resto = A ++ x :: B1 → d ∈ A :=
      fun B1 h1 => hinv.orden A x B1 h1 o ho hx d hd
    have hnew : x ∈ e → ∀ A1, A = (plan ++ a :: resto) ++ A1 → d ∈ A := by
      intro hxe A1 hA
      have h1 := hdeps x hxe o ho hx d hd
      rw [hA]
      apply List.mem_append_left
      rw [List.mem_append, List.mem_singleton] at h1
      rcases h1 with h1 | h1
      · exact List.mem_append_left _ h1
      · exact List.mem_append_right _ (h1 ▸ List.mem_cons_self _ _)
    rcases List.append_eq_append_iff.1 hAB with ⟨A1, hA, hE⟩ | ⟨C, hSC, hC⟩
    · exact hnew (by rw [hE]; simp) A1 hA
    · cases C with
      | nil =>
        have hE : e = x :: B := by simpa using hC.symm
        exact hnew (by rw [hE]; simp) [] (by simpa using hSC.symm)
      | cons c C1 =>
        have hc : x = c := by
          have := List.head_eq_of_cons_eq hC
          exact this
        subst hc
        exact hold C1 hSC
  · intro hids p hp
    rw [he, hS]
    rw [List.mem_append, List.mem_singleton] at hp
    rcases hp with hp | hp
    · exact (hinv.hermanos hids p hp).trans (List.sublist_append_left _ _)
    · rw [hp, heq hids]
      exact List.sublist_append_right _ _

/-- The loop, entered in a state that satisfies the invariant and with fuel
for the ids not yet planned, ends with an empty queue; the final plan
satisfies the invariant and extends the plan and the queue it started from. -/
theorem bucle_spec (os : List Orden) (adj : Mapa (List String))
    (hadj : ∀ k ∈ clavesDe os, Mapa.get adj k = some (hijos os k)) :
    ∀ (fuel : Nat) (queue : List String) (deg : Mapa Int) (plan : List String),
      Invariante os queue deg plan → (clavesDe os).length ≤ fuel + plan.length →
      ∃ final deg1, bucle adj fuel queue deg plan = some final ∧
        Invariante os [] deg1 final ∧ (plan ++ queue) <+: final := by
  intro fuel
  induction fuel with
  | zero =>
    intro queue deg plan hinv hlen
    cases queue with
    | nil => exact ⟨plan, deg, by simp [bucle], hinv, by simp⟩
    | cons a resto =>
      have h1 := (List.subperm_of_subset hinv.nodup hinv.sub).length_le
      simp only [List.length_append, List.length_cons] at h1
      omega
  | succ fuel ih =>
    intro queue deg plan hinv hlen
    cases queue with
    | nil => exact ⟨plan, deg, by simp [bucle], hinv, by simp⟩
    | cons a resto =>
      have haK : a ∈ clavesDe os := hinv.sub a (by simp)
      obtain ⟨hinv1, e, he, _⟩ := invariante_paso os a resto deg plan hinv
      obtain ⟨final, deg1, h1, h2, h3⟩ :=
        ih _ _ (plan ++ [a]) hinv1 (by simp only [List.length_append, List.length_singleton]; omega)
      refine ⟨final, deg1, ?_, h2, ?_⟩
      · simp only [bucle, hadj a haK]
        exact h1
      · rw [he] at h3
        have h4 : (plan ++ a :: resto) <+: (plan ++ [a]) ++ (resto ++ e) := by
          refine ⟨e, by simp⟩
        exact h4.trans h3

theorem planDelBucle_of_invariante (os : List Orden) (deg : Mapa Int) (final : List String)
    (h : Invariante os [] deg final) (hr : raices os <+: final) : PlanDelBucle os final := by
  refine ⟨?_, ?_, ?_, ?_, ?_, hr⟩
  · simpa using h.nodup
  · intro x hx
    exact (mem_clavesDe os x).1 (h.sub x (by simpa using hx))
  · intro k hk
    have := h.listas k ((mem_clavesDe os k).2 hk)
    rw [List.append_nil, resueltas_eq_grado_iff] at this
    exact this
  · intro A x B hAB
    exact h.orden A x B (by simpa using hAB)
  · intro hids p hp
    simpa using h.hermanos hids p hp

/-- The body of the function on an input whose references are valid: the loop
ends within its fuel, and the result is its plan when this has the length of
the input, and the circular-dependency error otherwise. -/
theorem planificarLista_validas (os : List Orden) (hv : ReferenciasValidas os) :
    ∃ final, PlanDelBucle os final ∧
      planificarLista os = some (if final.length = os.length then .ok final
        else .error mensajeCircular) := by
  obtain ⟨adj, deg, h1, h2, h3, _, h5⟩ := grafo_spec os hv
  have hinv := invariante_inicial os deg h2 h5
  obtain ⟨final, deg1, h6, h7, h8⟩ :=
    bucle_spec os adj h3 os.length (colaInicial deg) deg [] hinv
      (by simpa using length_clavesDe_le os)
  have hq : colaInicial deg = raices os := by
    rw [colaInicial_eq deg (h2 ▸ nodup_clavesDe os), h2]
    apply List.filter_congr
    intro k hk
    rw [h5 k hk]
    simp
  rw [List.nil_append, hq] at h8
  refine ⟨final, planDelBucle_of_invariante os deg1 final h7 h8, ?_⟩
  unfold planificarLista
  simp only [ids] at h1
  simp only [h1, h6]
  by_cases hl : final.length = os.length <;> simp [hl]

theorem primeraInvalida_eq_none (os : List Orden) :
    primeraInvalida os = none ↔ ReferenciasValidas os := by
  unfold primeraInvalida ReferenciasValidas
  rw [List.find?_eq_none]
  constructor
  · intro h o ho d hd
    have := h o ho
    simpa [hd] using this
  · intro h o ho
    cases hd : o.declarada with
    | none => simp
    | some d => simpa using h o ho d hd

/-- The body of the function on an input with an invalid reference: the
reference error of the first order that has one. -/
theorem planificarLista_invalida (os : List Orden) (o : Orden)
    (h : primeraInvalida os = some o) :
    ∃ d, o.declarada = some d ∧ d ∉ ids os ∧
      planificarLista os = some (.error (mensajeReferencia d o.id)) := by
  unfold primeraInvalida at h
  obtain ⟨hbad, pre, suf, hos, hpre⟩ := List.find?_eq_some.1 h
  cases hd : o.declarada with
  | none => simp [hd] at hbad
  | some d =>
    have hn : d ∉ ids os := by simpa [hd] using hbad
    refine ⟨d, rfl, hn, ?_⟩
    have hvpre : ∀ o1 ∈ pre, ∀ d1, o1.declarada = some d1 → d1 ∈ ids os := by
      intro o1 ho1 d1 hd1
      have := hpre o1 ho1
      simpa [hd1] using this
    have hc := construir_error pre o suf d (ids os) (inicializar os [] []).1
      (inicializar os [] []).2 hvpre hd hn
    unfold planificarLista
    simp only [ids] at hc
    rw [← hos] at hc
    simp only [hc]

/-! ## The function as a whole -/

theorem planificarProduccion_lista (os : List Orden) :
    planificarProduccion (some os) = planificarLista os := by
  cases os with
  | nil => rfl
  | cons o os => simp [planificarProduccion]

theorem mensajeReferencia_ne_circular (d i : String) :
    mensajeReferencia d i ≠ mensajeCircular := by
  intro h
  have h1 := congrArg (fun s => s.data.head?) h
  simp [mensajeReferencia, mensajeCircular, String.data_append] at h1

/-- The fuel of the loop is always enough: the function returns a sequence or
fails with an error on every input. -/
theorem bucle_termina (entrada : Option (List Orden)) :
    ∃ r, planificarProduccion entrada = some r := by
  cases entrada with
  | none => exact ⟨_, rfl⟩
  | some os =>
    rw [planificarProduccion_lista]
    cases hp : primeraInvalida os with
    | none =>
      obtain ⟨final, _, h⟩ := planificarLista_validas os ((primeraInvalida_eq_none os).1 hp)
      exact ⟨_, h⟩
    | some o =>
      obtain ⟨d, _, _, h⟩ := planificarLista_invalida os o hp
      exact ⟨_, h⟩

/-- With valid references the function never fails with the reference error. -/
theorem validas_no_referencia (os : List Orden) (hv : ReferenciasValidas os) (d i : String) :
    planificarProduccion (some os) ≠ some (.error (mensajeReferencia d i)) := by
  obtain ⟨final, _, h⟩ := planificarLista_validas os hv
  rw [planificarProduccion_lista, h]
  by_cases hl : final.length = os.length
  · simp [hl]
  · simp only [hl, if_false, ne_eq, Option.some.injEq, Except.error.injEq]
    exact fun h1 => mensajeReferencia_ne_circular d i h1.symm

/-- What a successful call has established. -/
theorem exito_spec (os : List Orden) (plan : List String)
    (h : planificarProduccion (some os) = some (.ok plan)) :
    ReferenciasValidas os ∧ PlanDelBucle os plan ∧ plan.length = os.length ∧
      (ids os).Nodup ∧ plan.Perm (ids os) := by
  rw [planificarProduccion_lista] at h
  cases hp : primeraInvalida os with
  | some o =>
    obtain ⟨d, _, _, h1⟩ := planificarLista_invalida os o hp
    rw [h1] at h
    simp at h
  | none =>
    have hv := (primeraInvalida_eq_none os).1 hp
    obtain ⟨final, hpl, h1⟩ := planificarLista_validas os hv
    rw [h1] at h
    by_cases hl : final.length = os.length
    · simp only [hl, if_true, Option.some.injEq, Except.ok.injEq] at h
      subst h
      have hsp : final.Subperm (clavesDe os) :=
        List.subperm_of_subset hpl.nodup (fun x hx => (mem_clavesDe os x).2 (hpl.sub x hx))
      have hids : (ids os).Nodup := nodup_ids_of_length os (hl ▸ hsp.length_le)
      have hsp2 : final.Subperm (ids os) := List.subperm_of_subset hpl.nodup hpl.sub
      have hperm : final.Perm (ids os) := hsp2.perm_of_length_le (by simp [ids, hl])
      exact ⟨hv, hpl, hl, hids, hperm⟩
    · simp [hl] at h

theorem indexOf_lt_of_split (l A B : List String) (x d : String) (hl : l = A ++ x :: B)
    (hnd : l.Nodup) (hd : d ∈ A) : l.indexOf d < l.indexOf x := by
  subst hl
  have hx : x ∉ A := by
    intro hxa
    exact (List.nodup_append.1 hnd).2.2 hxa (List.mem_cons_self _ _)
  rw [List.indexOf_append_of_mem hd, List.indexOf_append_of_not_mem hx,
    List.indexOf_cons_self]
  have := List.indexOf_lt_length.2 hd
  omega

/-- In the plan the loop ends with, a declared dependency of a planned id
stands before it. -/
theorem planDelBucle_antes (os : List Orden) (final : List String)
    (hpl : PlanDelBucle os final) (o : Orden) (ho : o ∈ os) (d : String)
    (hd : o.declarada = some d) (hmem : o.id ∈ final) :
    d ∈ final ∧ final.indexOf d < final.indexOf o.id := by
  obtain ⟨A, B, hAB⟩ := List.append_of_mem hmem
  have hdA : d ∈ A := hpl.orden A o.id B hAB o ho rfl d hd
  refine ⟨?_, indexOf_lt_of_split final A B o.id d hAB hpl.nodup hdA⟩
  rw [hAB]
  exact List.mem_append_left _ hdA

theorem indexOf_lt_of_sublist_pair (l : List String) (a b : String)
    (h : [a, b].Sublist l) (hnd : l.Nodup) : l.indexOf a < l.indexOf b := by
  induction l with
  | nil => simp at h
  | cons x l ih =>
    have hx := List.nodup_cons.1 hnd
    cases h with
    | cons _ h1 =>
      have ha : a ∈ l := h1.subset (by simp)
      have hb : b ∈ l := h1.subset (by simp)
      have hxa : x ≠ a := fun h2 => hx.1 (h2 ▸ ha)
      have hxb : x ≠ b := fun h2 => hx.1 (h2 ▸ hb)
      rw [List.indexOf_cons_ne _ hxa, List.indexOf_cons_ne _ hxb]
      exact Nat.succ_lt_succ (ih h1 hx.2)
    | cons₂ _ h1 =>
      have hb : b ∈ l := h1.subset (by simp)
      have hab : a ≠ b := fun h2 => hx.1 (h2 ▸ hb)
      rw [List.indexOf_cons_self, List.indexOf_cons_ne _ hab]
      exact Nat.succ_pos _

/-- In a non-empty finite set in which every element is related to some
element of the set, the relation has a cycle. -/
theorem existe_ciclo (R : String → String → Prop) (U : List String) (hne : U ≠ [])
    (hstep : ∀ x ∈ U, ∃ y ∈ U, R x y) : ∃ a, Relation.TransGen R a a := by
  by_contra hno
  push_neg at hno
  let r : {x // x ∈ U} → {x // x ∈ U} → Prop := fun a b => Relation.TransGen R b.1 a.1
  haveI : IsIrrefl _ r := ⟨fun a h => hno a.1 h⟩
  haveI : IsTrans _ r := ⟨fun a b c h1 h2 => Relation.TransGen.trans h2 h1⟩
  have hwf : WellFounded r := Finite.wellFounded_of_trans_of_irrefl r
  obtain ⟨x0, hx0⟩ := List.exists_mem_of_ne_nil U hne
  obtain ⟨m, _, hm⟩ := hwf.has_min Set.univ ⟨⟨x0, hx0⟩, trivial⟩
  obtain ⟨y, hy, hRy⟩ := hstep m.1 m.2
  exact hm ⟨y, hy⟩ trivial (Relation.TransGen.single hRy)

/-- With distinct ids and valid references, a plan shorter than the input
leaves ids that wait for each other in a cycle. -/
theorem ciclo_of_error (os : List Orden) (hnd : (ids os).Nodup) (hv : ReferenciasValidas os)
    (h : planificarProduccion (some os) = some (.error mensajeCircular)) : TieneCiclo os := by
  obtain ⟨final, hpl, h1⟩ := planificarLista_validas os hv
  rw [planificarProduccion_lista, h1] at h
  have hl : final.length ≠ os.length := by
    intro hl
    simp [hl] at h
  have hex : ∃ k ∈ ids os, k ∉ final := by
    by_contra hall
    push_neg at hall
    have h2 := (List.subperm_of_subset hnd hall).length_le
    have h3 := (List.subperm_of_subset hpl.nodup hpl.sub).length_le
    simp only [ids, List.length_map] at h2 h3
    omega
  obtain ⟨k, hk1, hk2⟩ := hex
  apply existe_ciclo (DependeDe os) ((ids os).filter (fun x => x ∉ final))
  · intro hnil
    have : k ∈ (ids os).filter (fun x => x ∉ final) := by
      rw [List.mem_filter]
      exact ⟨hk1, by simpa using hk2⟩
    rw [hnil] at this
    simp at this
  · intro x hx
    rw [List.mem_filter] at hx
    have hx2 : x ∉ final := by simpa using hx.2
    have h4 := (hpl.listas x hx.1).not.1 hx2
    push_neg at h4
    obtain ⟨o, ho, hox, d, hd, hdn⟩ := h4
    refine ⟨d, ?_, o, ho, hox, hd⟩
    rw [List.mem_filter]
    exact ⟨hv o ho d hd, by simpa using hdn⟩

/-- In a returned plan, an id that reaches another by dependency links stands
after it. -/
theorem indexOf_lt_of_transGen (os : List Orden) (plan : List String)
    (h : planificarProduccion (some os) = some (.ok plan)) (a b : String)
    (hab : Relation.TransGen (DependeDe os) a b) : plan.indexOf b < plan.indexOf a := by
  obtain ⟨_, hpl, _, _, hperm⟩ := exito_spec os plan h
  have hstep : ∀ x y, DependeDe os x y → plan.indexOf y < plan.indexOf x := by
    rintro x y ⟨o, ho, hox, hd⟩
    have hmem : o.id ∈ plan := hperm.mem_iff.2 (List.mem_map.2 ⟨o, ho, rfl⟩)
    have := (planDelBucle_antes os plan hpl o ho y hd hmem).2
    rwa [hox] at this
  induction hab with
  | single h1 => exact hstep _ _ h1
  | tail _ h2 ih => exact lt_trans (hstep _ _ h2) ih

/-- With valid references, an input with a cycle makes the function fail with
the circular-dependency error. -/
theorem error_of_ciclo (os : List Orden) (hv : ReferenciasValidas os) (hc : TieneCiclo os) :
    planificarProduccion (some os) = some (.error mensajeCircular) := by
  obtain ⟨final, _, h1⟩ := planificarLista_validas os hv
  by_cases hl : final.length = os.length
  · exfalso
    obtain ⟨a, ha⟩ := hc
    have h2 : planificarProduccion (some os) = some (.ok final) := by
      rw [planificarProduccion_lista, h1]; simp [hl]
    exact lt_irrefl _ (indexOf_lt_of_transGen os final h2 a a ha)
  · rw [planificarProduccion_lista, h1]; simp [hl]

theorem cadena_fst (xs : List String) (previa : Option String) :
    (cadena previa xs).map Prod.fst = xs := by
  induction xs generalizing previa with
  | nil => rfl
  | cons x resto ih => simp [cadena, ih]

theorem cadena_snd (xs : List String) (previa : Option String) (x d : String)
    (h : (x, some d) ∈ cadena previa xs) : previa = some d ∨ d ∈ xs := by
  induction xs generalizing previa with
  | nil => simp [cadena] at h
  | cons y resto ih =>
    simp only [cadena, List.mem_cons, Prod.mk.injEq] at h
    rcases h with ⟨_, h2⟩ | h
    · exact Or.inl h2.symm
    · rcases ih (some y) h with h3 | h3
      · exact Or.inr (by simp [Option.some.inj h3])
      · exact Or.inr (List.mem_cons_of_mem _ h3)

theorem cadena_funcional (xs : List String) (previa : Option String) (hnd : xs.Nodup)
    (x : String) (a b : Option String) (ha : (x, a) ∈ cadena previa xs)
    (hb : (x, b) ∈ cadena previa xs) : a = b := by
  induction xs generalizing previa with
  | nil => simp [cadena] at ha
  | cons y resto ih =>
    have hy := List.nodup_cons.1 hnd
    have hfst : ∀ c, (x, c) ∈ cadena (some y) resto → x ∈ resto := by
      intro c hc
      have := List.mem_map_of_mem Prod.fst hc
      rwa [cadena_fst] at this
    simp only [cadena, List.mem_cons, Prod.mk.injEq] at ha hb
    rcases ha with ⟨hx, ha⟩ | ha
    · rcases hb with ⟨_, hb⟩ | hb
      · rw [ha, hb]
      · exact absurd (hx ▸ hfst b hb) hy.1
    · rcases hb with ⟨hx, _⟩ | hb
      · exact absurd (hx ▸ hfst a ha) hy.1
      · exact ih (some y) hy.2 ha hb

/-! ## The claims -/

/-- C6: for the empty collection and for an absent (`null` or `undefined`)
collection the function returns the empty sequence, and raises no error. -/
theorem vacia_o_ausente :
    planificarProduccion none = some (.ok []) ∧
      planificarProduccion (some []) = some (.ok []) :=
  ⟨rfl, rfl⟩

/-- C1: whenever the function returns a sequence, for every order of the input
that declares a dependency, the id of the order and the dependency both occur
in the sequence, and the dependency at a strictly smaller index. -/
theorem dependencia_antes (os : List Orden) (plan : List String)
    (h : planificarProduccion (some os) = some (.ok plan))
    (o : Orden) (ho : o ∈ os) (d : String) (hd : o.declarada = some d) :
    o.id ∈ plan ∧ d ∈ plan ∧ plan.indexOf d < plan.indexOf o.id := by
  obtain ⟨_, hpl, _, _, hperm⟩ := exito_spec os plan h
  have hmem : o.id ∈ plan := hperm.mem_iff.2 (List.mem_map.2 ⟨o, ho, rfl⟩)
  obtain ⟨h1, h2⟩ := planDelBucle_antes os plan hpl o ho d hd hmem
  exact ⟨hmem, h1, h2⟩

theorem dependencia_antes_witness :
    planificarProduccion (some [⟨"C", 3, some "B"⟩, ⟨"A", 1, none⟩, ⟨"B", 2, some "A"⟩])
        = some (.ok ["A", "B", "C"]) ∧
      (⟨"C", 3, some "B"⟩ : Orden) ∈
        [(⟨"C", 3, some "B"⟩ : Orden), ⟨"A", 1, none⟩, ⟨"B", 2, some "A"⟩] ∧
      (⟨"C", 3, some "B"⟩ : Orden).declarada = some "B" ∧
      ("C" ∈ ["A", "B", "C"] ∧ "B" ∈ ["A", "B", "C"] ∧
        ["A", "B", "C"].indexOf "B" < ["A", "B", "C"].indexOf "C") :=
  ⟨rfl, by decide, rfl,
    dependencia_antes [⟨"C", 3, some "B"⟩, ⟨"A", 1, none⟩, ⟨"B", 2, some "A"⟩]
      ["A", "B", "C"] rfl ⟨"C", 3, some "B"⟩ (by decide) "B" rfl⟩

/-- C2: whenever the function returns a sequence, the sequence is a
permutation of the list of input ids: the id of every input order occurs in
it exactly once, it has no id that is not in the input, and its length is the
number of input orders. -/
theorem plan_es_permutacion (os : List Orden) (plan : List String)
    (h : planificarProduccion (some os) = some (.ok plan)) :
    plan.Perm (ids os) ∧ (∀ o ∈ os, plan.count o.id = 1) ∧
      (∀ x ∈ plan, ∃ o ∈ os, o.id = x) ∧ plan.length = os.length := by
  obtain ⟨_, hpl, hlen, _, hperm⟩ := exito_spec os plan h
  refine ⟨hperm, ?_, ?_, hlen⟩
  · intro o ho
    have hmem : o.id ∈ plan := hperm.mem_iff.2 (List.mem_map.2 ⟨o, ho, rfl⟩)
    exact List.count_eq_one_of_mem hpl.nodup hmem
  · intro x hx
    obtain ⟨o, ho, hox⟩ := List.mem_map.1 (hpl.sub x hx)
    exact ⟨o, ho, hox⟩

theorem plan_es_permutacion_witness :
    planificarProduccion (some [⟨"C", 3, some "B"⟩, ⟨"A", 1, none⟩, ⟨"B", 2, some "A"⟩])
        = some (.ok ["A", "B", "C"]) ∧
      (["A", "B", "C"].Perm (ids [⟨"C", 3, some "B"⟩, ⟨"A", 1, none⟩, ⟨"B", 2, some "A"⟩]) ∧
        (∀ o ∈ [(⟨"C", 3, some "B"⟩ : Orden), ⟨"A", 1, none⟩, ⟨"B", 2, some "A"⟩],
          ["A", "B", "C"].count o.id = 1) ∧
        (∀ x ∈ ["A", "B", "C"],
          ∃ o ∈ [(⟨"C", 3, some "B"⟩ : Orden), ⟨"A", 1, none⟩, ⟨"B", 2, some "A"⟩], o.id = x) ∧
        ["A", "B", "C"].length
          = [(⟨"C", 3, some "B"⟩ : Orden), ⟨"A", 1, none⟩, ⟨"B", 2, some "A"⟩].length) :=
  ⟨rfl, plan_es_permutacion _ _ rfl⟩

/-- C4: the function fails with the reference error exactly when some order
declares a dependency that is not the id of any order of the input; and then
it does not fail with the circular-dependency error, whatever cycles the
input has. -/
theorem error_de_referencia_sii (os : List Orden) :
    ((∃ d i, planificarProduccion (some os) = some (.error (mensajeReferencia d i))) ↔
        ∃ o ∈ os, ∃ d, o.declarada = some d ∧ d ∉ ids os) ∧
      ((∃ o ∈ os, ∃ d, o.declarada = some d ∧ d ∉ ids os) →
        planificarProduccion (some os) ≠ some (.error mensajeCircular)) := by
  have hfalla : (∃ o ∈ os, ∃ d, o.declarada = some d ∧ d ∉ ids os) →
      ∃ d i, planificarProduccion (some os) = some (.error (mensajeReferencia d i)) := by
    rintro ⟨o, ho, d, hd, hn⟩
    cases hp : primeraInvalida os with
    | none => exact absurd ((primeraInvalida_eq_none os).1 hp o ho d hd) hn
    | some o1 =>
      obtain ⟨d1, _, _, h1⟩ := planificarLista_invalida os o1 hp
      exact ⟨d1, o1.id, by rw [planificarProduccion_lista, h1]⟩
  refine ⟨⟨?_, hfalla⟩, ?_⟩
  · rintro ⟨d, i, h⟩
    by_contra hno
    have hv : ReferenciasValidas os := by
      intro o ho d1 hd1
      by_contra hn
      exact hno ⟨o, ho, d1, hd1, hn⟩
    exact validas_no_referencia os hv d i h
  · intro hex hc
    obtain ⟨d, i, h⟩ := hfalla hex
    rw [h] at hc
    simp only [Option.some.injEq, Except.error.injEq] at hc
    exact mensajeReferencia_ne_circular d i hc

/-- C5: whenever the function fails with the reference error, that is, with
an error other than the circular-dependency one, the message of the error is
"La dependencia 'd1' para la orden 'id' no existe." for the id `id` and the
declared dependency `d1` of the first order, in input order, whose declared
dependency is not the id of any input order. -/
theorem error_de_referencia_primera (os : List Orden) (e : String)
    (h : planificarProduccion (some os) = some (.error e))
    (hne : e ≠
      "Dependencia circular detectada. No se puede generar un plan de producción válido.") :
    ∃ pre o suf d1, os = pre ++ o :: suf ∧
      (∀ o1 ∈ pre, ∀ d2, o1.declarada = some d2 → d2 ∈ ids os) ∧
      o.declarada = some d1 ∧ d1 ∉ ids os ∧
      e = "La dependencia '" ++ d1 ++ "' para la orden '" ++ o.id ++ "' no existe." := by
  rw [planificarProduccion_lista] at h
  cases hp : primeraInvalida os with
  | none =>
    exfalso
    obtain ⟨final, _, h1⟩ := planificarLista_validas os ((primeraInvalida_eq_none os).1 hp)
    rw [h1] at h
    by_cases hl : final.length = os.length
    · simp [hl] at h
    · simp only [hl, if_false, Option.some.injEq, Except.error.injEq] at h
      exact hne h.symm
  | some o =>
    obtain ⟨d1, hd1, hn, h1⟩ := planificarLista_invalida os o hp
    rw [h1] at h
    simp only [Option.some.injEq, Except.error.injEq] at h
    unfold primeraInvalida at hp
    obtain ⟨_, pre, suf, hos, hpre⟩ := List.find?_eq_some.1 hp
    refine ⟨pre, o, suf, d1, hos, ?_, hd1, hn, h.symm⟩
    intro o1 ho1 d2 hd2
    have := hpre o1 ho1
    simpa [hd2] using this

theorem error_de_referencia_primera_witness :
    planificarProduccion (some [⟨"A", 1, none⟩, ⟨"B", 2, some "Y"⟩, ⟨"C", 3, some "Z"⟩])
        = some (.error "La dependencia 'Y' para la orden 'B' no existe.") ∧
      "La dependencia 'Y' para la orden 'B' no existe." ≠
        "Dependencia circular detectada. No se puede generar un plan de producción válido." ∧
      ∃ pre o suf d1,
        [(⟨"A", 1, none⟩ : Orden), ⟨"B", 2, some "Y"⟩, ⟨"C", 3, some "Z"⟩] = pre ++ o :: suf ∧
        (∀ o1 ∈ pre, ∀ d2, o1.declarada = some d2 →
          d2 ∈ ids [⟨"A", 1, none⟩, ⟨"B", 2, some "Y"⟩, ⟨"C", 3, some "Z"⟩]) ∧
        o.declarada = some d1 ∧
        d1 ∉ ids [⟨"A", 1, none⟩, ⟨"B", 2, some "Y"⟩, ⟨"C", 3, some "Z"⟩] ∧
        "La dependencia 'Y' para la orden 'B' no existe."
          = "La dependencia '" ++ d1 ++ "' para la orden '" ++ o.id ++ "' no existe." :=
  ⟨rfl, by decide,
    error_de_referencia_primera
      [⟨"A", 1, none⟩, ⟨"B", 2, some "Y"⟩, ⟨"C", 3, some "Z"⟩] _ rfl (by decide)⟩

/-- C3: for every input with pairwise distinct ids in which every declared
dependency is the id of some input order (the empty input included), the
function fails with the circular-dependency error exactly when the dependency
relation has a cycle, and it returns a sequence when there is none. -/
theorem error_circular_sii (os : List Orden) (hnd : (ids os).Nodup)
    (hv : ReferenciasValidas os) :
    (planificarProduccion (some os) = some (.error mensajeCircular) ↔ TieneCiclo os) ∧
      (¬ TieneCiclo os → ∃ plan, planificarProduccion (some os) = some (.ok plan)) := by
  refine ⟨⟨ciclo_of_error os hnd hv, error_of_ciclo os hv⟩, ?_⟩
  intro hno
  obtain ⟨final, _, h1⟩ := planificarLista_validas os hv
  by_cases hl : final.length = os.length
  · exact ⟨final, by rw [planificarProduccion_lista, h1]; simp [hl]⟩
  · exfalso
    apply hno
    apply ciclo_of_error os hnd hv
    rw [planificarProduccion_lista, h1]; simp [hl]

theorem error_circular_sii_witness :
    (ids [⟨"A", 1, some "B"⟩, ⟨"B", 2, some "A"⟩]).Nodup ∧
      ReferenciasValidas [⟨"A", 1, some "B"⟩, ⟨"B", 2, some "A"⟩] ∧
      ((planificarProduccion (some [⟨"A", 1, some "B"⟩, ⟨"B", 2, some "A"⟩])
            = some (.error mensajeCircular) ↔
          TieneCiclo [⟨"A", 1, some "B"⟩, ⟨"B", 2, some "A"⟩]) ∧
        (¬ TieneCiclo [⟨"A", 1, some "B"⟩, ⟨"B", 2, some "A"⟩] →
          ∃ plan, planificarProduccion (some [⟨"A", 1, some "B"⟩, ⟨"B", 2, some "A"⟩])
            = some (.ok plan))) :=
  ⟨by decide, by decide, error_circular_sii _ (by decide) (by decide)⟩

/-- C7: for every input with pairwise distinct ids in which no order declares
a dependency, the function returns the ids of the orders in input order. -/
theorem sin_dependencias (os : List Orden) (hnd : (ids os).Nodup)
    (hno : ∀ o ∈ os, o.declarada = none) :
    planificarProduccion (some os) = some (.ok (ids os)) := by
  have hv : ReferenciasValidas os := by
    intro o ho d hd
    rw [hno o ho] at hd
    cases hd
  obtain ⟨final, hpl, h1⟩ := planificarLista_validas os hv
  have hr : raices os = ids os := by
    unfold raices
    rw [clavesDe_of_nodup os hnd, List.filter_eq_self]
    intro k _
    simp only [decide_eq_true_eq, grado, List.countP_eq_zero]
    intro o ho
    simp [hno o ho]
  have hpre := hpl.raices
  rw [hr] at hpre
  have hlen := (List.subperm_of_subset hpl.nodup hpl.sub).length_le
  have heq : ids os = final := hpre.sublist.eq_of_length_le hlen
  rw [planificarProduccion_lista, h1, ← heq]
  simp [ids]

theorem sin_dependencias_witness :
    (ids [⟨"C", 3, none⟩, ⟨"A", 1, none⟩, ⟨"B", 2, some ""⟩]).Nodup ∧
      (∀ o ∈ [(⟨"C", 3, none⟩ : Orden), ⟨"A", 1, none⟩, ⟨"B", 2, some ""⟩],
        o.declarada = none) ∧
      planificarProduccion (some [⟨"C", 3, none⟩, ⟨"A", 1, none⟩, ⟨"B", 2, some ""⟩])
        = some (.ok (ids [⟨"C", 3, none⟩, ⟨"A", 1, none⟩, ⟨"B", 2, some ""⟩])) :=
  ⟨by decide, by decide, sin_dependencias _ (by decide) (by decide)⟩

/-- C8: whenever the function returns a sequence, two orders that declare the
same dependency stand in the sequence in the order they have in the input,
and both after that dependency. -/
theorem hermanos_en_orden (os : List Orden) (plan : List String)
    (h : planificarProduccion (some os) = some (.ok plan))
    (pre : List Orden) (o1 : Orden) (mid : List Orden) (o2 : Orden) (suf : List Orden)
    (d : String) (hos : os = pre ++ o1 :: (mid ++ o2 :: suf))
    (hd1 : o1.declarada = some d) (hd2 : o2.declarada = some d) :
    d ∈ plan ∧ o1.id ∈ plan ∧ o2.id ∈ plan ∧
      plan.indexOf d < plan.indexOf o1.id ∧ plan.indexOf o1.id < plan.indexOf o2.id := by
  obtain ⟨_, hpl, _, hids, hperm⟩ := exito_spec os plan h
  have ho1 : o1 ∈ os := by rw [hos]; simp
  have ho2 : o2 ∈ os := by rw [hos]; simp
  have hm1 : o1.id ∈ plan := hperm.mem_iff.2 (List.mem_map.2 ⟨o1, ho1, rfl⟩)
  have hm2 : o2.id ∈ plan := hperm.mem_iff.2 (List.mem_map.2 ⟨o2, ho2, rfl⟩)
  obtain ⟨hdp, hlt⟩ := planDelBucle_antes os plan hpl o1 ho1 d hd1 hm1
  have hsub : [o1, o2].Sublist os := by
    rw [hos]
    refine List.Sublist.trans ?_ (List.sublist_append_right _ _)
    refine List.Sublist.cons₂ _ ?_
    refine List.Sublist.trans ?_ (List.sublist_append_right _ _)
    exact List.Sublist.cons₂ _ (List.nil_sublist _)
  have hsub2 : [o1.id, o2.id].Sublist (hijos os d) := by
    have := (hsub.filter (fun o => o.declarada = some d)).map (fun o => o.id)
    simpa [hijos, List.filter_cons, hd1, hd2] using this
  have hsub3 : [o1.id, o2.id].Sublist plan := hsub2.trans (hpl.hermanos hids d hdp)
  exact ⟨hdp, hm1, hm2, hlt, indexOf_lt_of_sublist_pair plan _ _ hsub3 hpl.nodup⟩

theorem hermanos_en_orden_witness :
    planificarProduccion (some [⟨"A", 1, none⟩, ⟨"B", 2, some "A"⟩, ⟨"C", 3, some "A"⟩])
        = some (.ok ["A", "B", "C"]) ∧
      [(⟨"A", 1, none⟩ : Orden), ⟨"B", 2, some "A"⟩, ⟨"C", 3, some "A"⟩]
        = [⟨"A", 1, none⟩] ++ ⟨"B", 2, some "A"⟩ :: ([] ++ ⟨"C", 3, some "A"⟩ :: []) ∧
      (⟨"B", 2, some "A"⟩ : Orden).declarada = some "A" ∧
      (⟨"C", 3, some "A"⟩ : Orden).declarada = some "A" ∧
      ("A" ∈ ["A", "B", "C"] ∧ "B" ∈ ["A", "B", "C"] ∧ "C" ∈ ["A", "B", "C"] ∧
        ["A", "B", "C"].indexOf "A" < ["A", "B", "C"].indexOf "B" ∧
        ["A", "B", "C"].indexOf "B" < ["A", "B", "C"].indexOf "C") :=
  ⟨rfl, rfl, rfl, rfl,
    hermanos_en_orden [⟨"A", 1, none⟩, ⟨"B", 2, some "A"⟩, ⟨"C", 3, some "A"⟩]
      ["A", "B", "C"] rfl [⟨"A", 1, none⟩] ⟨"B", 2, some "A"⟩ [] ⟨"C", 3, some "A"⟩ []
      "A" rfl rfl rfl⟩

/-- C9: for pairwise distinct ids `x1, ..., xn`, if the input consists of
exactly the orders `x1` without dependency and `xi` with dependency `x(i-1)`,
listed in any order, the function returns `[x1, ..., xn]`. The orders are
given by their id and the dependency they declare (`Orden.declarada`), with
any durations. -/
theorem cadena_en_orden (xs : List String) (os : List Orden) (hnd : xs.Nodup)
    (hos : (os.map (fun o => (o.id, o.declarada))).Perm (cadena none xs)) :
    planificarProduccion (some os) = some (.ok xs) := by
  have hids : (ids os).Perm xs := by
    have := hos.map Prod.fst
    rw [cadena_fst, List.map_map] at this
    exact this
  have hidsnd : (ids os).Nodup := hids.nodup_iff.2 hnd
  have hpar : ∀ o ∈ os, (o.id, o.declarada) ∈ cadena none xs :=
    fun o ho => hos.mem_iff.1 (List.mem_map.2 ⟨o, ho, rfl⟩)
  have hv : ReferenciasValidas os := by
    intro o ho d hd
    have h1 := hpar o ho
    rw [hd] at h1
    rcases cadena_snd xs none o.id d h1 with h2 | h2
    · cases h2
    · exact hids.mem_iff.2 h2
  have hq : ∀ x dep, (x, dep) ∈ cadena none xs → ∀ o ∈ os, o.id = x → o.declarada = dep := by
    intro x dep hx o ho hox
    have h1 := hpar o ho
    rw [hox] at h1
    exact cadena_funcional xs none hnd x _ _ h1 hx
  have hfst : ∀ x dep, (x, dep) ∈ cadena none xs → x ∈ ids os := by
    intro x dep hx
    have := List.mem_map_of_mem Prod.fst hx
    rw [cadena_fst] at this
    exact hids.mem_iff.2 this
  obtain ⟨final, hpl, h1⟩ := planificarLista_validas os hv
  have hA : ∀ (resto : List String) (previa : Option String),
      (∀ par ∈ cadena previa resto, par ∈ cadena none xs) →
      (∀ p, previa = some p → p ∈ final) → ∀ x ∈ resto, x ∈ final := by
    intro resto
    induction resto with
    | nil => intro _ _ _ x hx; simp at hx
    | cons y resto ih =>
      intro previa hsub hprev x hx
      have hy : (y, previa) ∈ cadena none xs := hsub _ (by simp [cadena])
      have hyf : y ∈ final := by
        rw [hpl.listas y (hfst y previa hy)]
        intro o ho hoy d hd
        exact hprev d ((hq y previa hy o ho hoy).symm.trans hd)
      rcases List.mem_cons.1 hx with rfl | hx
      · exact hyf
      · refine ih (some y) (fun par hp => hsub par (by simp [cadena, hp])) ?_ x hx
        intro p hp
        cases hp
        exact hyf
  have hall : ∀ x ∈ xs, x ∈ final :=
    hA xs none (fun _ hp => hp) (fun p hp => by cases hp)
  have hlen : final.length = os.length := by
    have h2 := (List.subperm_of_subset hidsnd
      (fun x hx => hall x (hids.mem_iff.1 hx))).length_le
    have h3 := (List.subperm_of_subset hpl.nodup hpl.sub).length_le
    simp only [ids, List.length_map] at h2 h3
    omega
  have hperm : final.Perm xs :=
    ((List.subperm_of_subset hpl.nodup hpl.sub).perm_of_length_le
      (by simp [ids, hlen])).trans hids
  have hB : ∀ (resto : List String) (x : String),
      (∀ par ∈ cadena (some x) resto, par ∈ cadena none xs) →
      List.Chain (fun a b => final.indexOf a < final.indexOf b) x resto := by
    intro resto
    induction resto with
    | nil => intro _ _; exact List.Chain.nil
    | cons y resto ih =>
      intro x hsub
      have hy : (y, some x) ∈ cadena none xs := hsub _ (by simp [cadena])
      obtain ⟨o, ho, hoy⟩ := List.mem_map.1 (hos.mem_iff.2 hy)
      simp only [Prod.mk.injEq] at hoy
      have hyf : o.id ∈ final := by
        rw [hoy.1]
        exact hall y (hids.mem_iff.1 (hfst y _ hy))
      have hlt := (planDelBucle_antes os final hpl o ho x hoy.2 hyf).2
      rw [hoy.1] at hlt
      exact List.Chain.cons hlt (ih y (fun par hp => hsub par (by simp [cadena, hp])))
  haveI : IsTrans String (fun a b => final.indexOf a < final.indexOf b) :=
    ⟨fun _ _ _ h2 h3 => lt_trans h2 h3⟩
  haveI : IsAntisymm String (fun a b => final.indexOf a < final.indexOf b) :=
    ⟨fun _ _ h2 h3 => absurd (lt_trans h2 h3) (lt_irrefl _)⟩
  have hs1 : List.Sorted (fun a b => final.indexOf a < final.indexOf b) final :=
    List.pairwise_iff_forall_sublist.2
      (fun hab => indexOf_lt_of_sublist_pair final _ _ hab hpl.nodup)
  have hs2 : List.Sorted (fun a b => final.indexOf a < final.indexOf b) xs := by
    cases xs with
    | nil => exact List.Pairwise.nil
    | cons x resto =>
      exact List.chain_iff_pairwise.1 (hB resto x (fun par hp => by simp [cadena, hp]))
  have heq : final = xs := List.eq_of_perm_of_sorted hperm hs1 hs2
  rw [planificarProduccion_lista, h1, ← heq]
  simp [hlen]

theorem cadena_en_orden_witness :
    ["A", "B", "C", "D"].Nodup ∧
      (([⟨"C", 3, some "B"⟩, ⟨"D", 4, some "C"⟩, ⟨"A", 1, none⟩, ⟨"B", 2, some "A"⟩]
          : List Orden).map (fun o => (o.id, o.declarada))).Perm
        (cadena none ["A", "B", "C", "D"]) ∧
      planificarProduccion
          (some [⟨"C", 3, some "B"⟩, ⟨"D", 4, some "C"⟩, ⟨"A", 1, none⟩, ⟨"B", 2, some "A"⟩])
        = some (.ok ["A", "B", "C", "D"]) :=
  ⟨by decide, by decide, cadena_en_orden _ _ (by decide) (by decide)⟩

/-- C10: the code breaks the claim, and its own comment at line 75, on
duplicate ids: two orders without dependency that share the id `A` make the
function fail with the circular-dependency error, though every reference is
valid and the dependency relation has no cycle. -/
theorem error_circular_sin_ciclo :
    ReferenciasValidas [⟨"A", 1, none⟩, ⟨"A", 2, none⟩] ∧
      planificarProduccion (some [⟨"A", 1, none⟩, ⟨"A", 2, none⟩])
        = some (.error mensajeCircular) ∧
      ¬ TieneCiclo [⟨"A", 1, none⟩, ⟨"A", 2, none⟩] := by
  have hno : ∀ o ∈ [(⟨"A", 1, none⟩ : Orden), ⟨"A", 2, none⟩], o.declarada = none := by
    decide
  refine ⟨by decide, rfl, ?_⟩
  · rintro ⟨a, ha⟩
    have hstep : ∀ x y, ¬ DependeDe [⟨"A", 1, none⟩, ⟨"A", 2, none⟩] x y := by
      rintro x y ⟨o, ho, _, hd⟩
      rw [hno o ho] at hd
      cases hd
    cases ha with
    | single h1 => exact hstep _ _ h1
    | tail _ h2 => exact hstep _ _ h2

/-- With pairwise distinct ids and valid references the comment of line 75 is
right: if the function fails with the circular-dependency error then the
dependency relation has a cycle. -/
theorem ciclo_si_error_circular (os : List Orden) (hnd : (ids os).Nodup)
    (hv : ReferenciasValidas os)
    (h : planificarProduccion (some os) = some (.error mensajeCircular)) :
    TieneCiclo os :=
  ciclo_of_error os hnd hv h

theorem ciclo_si_error_circular_witness :
    (ids [⟨"A", 1, some "C"⟩, ⟨"B", 2, some "A"⟩, ⟨"C", 3, some "B"⟩]).Nodup ∧
      ReferenciasValidas [⟨"A", 1, some "C"⟩, ⟨"B", 2, some "A"⟩, ⟨"C", 3, some "B"⟩] ∧
      planificarProduccion
          (some [⟨"A", 1, some "C"⟩, ⟨"B", 2, some "A"⟩, ⟨"C", 3, some "B"⟩])
        = some (.error mensajeCircular) ∧
      TieneCiclo [⟨"A", 1, some "C"⟩, ⟨"B", 2, some "A"⟩, ⟨"C", 3, some "B"⟩] :=
  ⟨by decide, by decide, rfl, ciclo_si_error_circular _ (by decide) (by decide) rfl⟩

/-! ## Independence from the fields the algorithm does not read -/

theorem inicializar_congr (os1 os2 : List Orden) (adj : Mapa (List String)) (deg : Mapa Int)
    (h : ids os1 = ids os2) : inicializar os1 adj deg = inicializar os2 adj deg := by
  induction os1 generalizing os2 adj deg with
  | nil =>
    cases os2 with
    | nil => rfl
    | cons o2 r2 => simp [ids] at h
  | cons o1 r1 ih =>
    cases os2 with
    | nil => simp [ids] at h
    | cons o2 r2 =>
      simp only [ids, List.map_cons, List.cons.injEq] at h
      simp only [inicializar, h.1]
      exact ih r2 _ _ h.2

theorem construir_congr (os1 os2 : List Orden) (ordenIds : List String)
    (adj : Mapa (List String)) (deg : Mapa Int)
    (h : os1.map (fun o => (o.id, o.declarada)) = os2.map (fun o => (o.id, o.declarada))) :
    construir os1 ordenIds adj deg = construir os2 ordenIds adj deg := by
  induction os1 generalizing os2 adj deg with
  | nil =>
    cases os2 with
    | nil => rfl
    | cons o2 r2 => simp at h
  | cons o1 r1 ih =>
    cases os2 with
    | nil => simp at h
    | cons o2 r2 =>
      simp only [List.map_cons, List.cons.injEq, Prod.mk.injEq] at h
      obtain ⟨⟨h1, h2⟩, h3⟩ := h
      simp only [construir, h1, h2]
      cases o2.declarada with
      | none => exact ih r2 _ _ h3
      | some d =>
        by_cases hd : d ∈ ordenIds
        · simp only [hd, if_true]; exact ih r2 _ _ h3
        · simp only [hd, if_false]

/-- The function reads of each order only its id and the dependency it
declares. -/
theorem planificarProduccion_congr (os1 os2 : List Orden)
    (h : os1.map (fun o => (o.id, o.declarada)) = os2.map (fun o => (o.id, o.declarada))) :
    planificarProduccion (some os1) = planificarProduccion (some os2) := by
  have hids : ids os1 = ids os2 := by
    have := congrArg (List.map Prod.fst) h
    simpa [ids, List.map_map, Function.comp] using this
  have hlen : os1.length = os2.length := by
    have := congrArg List.length h
    simpa using this
  have hids2 : os1.map (fun o => o.id) = os2.map (fun o => o.id) := hids
  rw [planificarProduccion_lista, planificarProduccion_lista]
  unfold planificarLista
  simp only [hids2, hlen, inicializar_congr os1 os2 [] [] hids,
    construir_congr os1 os2 _ _ _ h]

theorem declarada_eq_some (o : Orden) (d : String) :
    o.declarada = some d ↔ o.dependencia = some d ∧ d ≠ "" := by
  unfold Orden.declarada
  cases o.dependencia with
  | none => simp
  | some x =>
    by_cases hx : x = ""
    · subst hx
      simp only [if_true, Option.some.injEq, ne_eq]
      constructor
      · intro h; cases h
      · rintro ⟨h1, h2⟩; exact absurd h1.symm h2
    · simp only [hx, if_false, Option.some.injEq, ne_eq]
      constructor
      · intro h; exact ⟨h, h ▸ hx⟩
      · intro h; exact h.1

/-- C11, the claim as stated fails: the reference error and the cycle error
carry the Spanish messages of the source, which are not the strings of the
interface contract. -/
theorem mensajes_no_son_del_contrato :
    planificarProduccion (some [⟨"X", 1, some "Y"⟩])
        = some (.error "La dependencia 'Y' para la orden 'X' no existe.") ∧
      "La dependencia 'Y' para la orden 'X' no existe." ≠ mensajeReferenciaContrato "Y" "X" ∧
      planificarProduccion (some [⟨"A", 1, some "B"⟩, ⟨"B", 2, some "A"⟩])
        = some (.error
          "Dependencia circular detectada. No se puede generar un plan de producción válido.") ∧
      "Dependencia circular detectada. No se puede generar un plan de producción válido."
        ≠ mensajeCircularContrato :=
  ⟨rfl, by decide, rfl, by decide⟩

/-- C11, amended: whenever the function fails, the message is one of the two
strings of the source: for the first order `id` with a missing dependency
`dep`, "La dependencia 'dep' para la orden 'id' no existe."; and with valid
references, "Dependencia circular detectada. No se puede generar un plan de
producción válido.". -/
theorem mensajes_de_error (os : List Orden) (e : String)
    (h : planificarProduccion (some os) = some (.error e)) :
    (∃ o d, primeraInvalida os = some o ∧ o.declarada = some d ∧ d ∉ ids os ∧
        e = "La dependencia '" ++ d ++ "' para la orden '" ++ o.id ++ "' no existe.") ∨
      (ReferenciasValidas os ∧
        e = "Dependencia circular detectada. No se puede generar un plan de producción válido.")
    := by
  rw [planificarProduccion_lista] at h
  cases hp : primeraInvalida os with
  | some o =>
    obtain ⟨d, hd, hn, h1⟩ := planificarLista_invalida os o hp
    rw [h1] at h
    simp only [Option.some.injEq, Except.error.injEq] at h
    exact Or.inl ⟨o, d, rfl, hd, hn, h.symm⟩
  | none =>
    have hv := (primeraInvalida_eq_none os).1 hp
    obtain ⟨final, _, h1⟩ := planificarLista_validas os hv
    rw [h1] at h
    by_cases hl : final.length = os.length
    · simp [hl] at h
    · simp only [hl, if_false, Option.some.injEq, Except.error.injEq] at h
      exact Or.inr ⟨hv, h.symm⟩

theorem mensajes_de_error_witness :
    planificarProduccion (some [⟨"X", 1, some "Y"⟩])
        = some (.error "La dependencia 'Y' para la orden 'X' no existe.") ∧
      ((∃ o d, primeraInvalida [⟨"X", 1, some "Y"⟩] = some o ∧ o.declarada = some d ∧
          d ∉ ids [⟨"X", 1, some "Y"⟩] ∧
          "La dependencia 'Y' para la orden 'X' no existe."
            = "La dependencia '" ++ d ++ "' para la orden '" ++ o.id ++ "' no existe.") ∨
        (ReferenciasValidas [⟨"X", 1, some "Y"⟩] ∧
          "La dependencia 'Y' para la orden 'X' no existe."
            = "Dependencia circular detectada. No se puede generar un plan de producción válido."))
    :=
  ⟨rfl, mensajes_de_error [⟨"X", 1, some "Y"⟩] _ rfl⟩

/-- C12: the result does not depend on durations: two inputs whose orders
agree position by position in id and in dependency give the same result, the
same sequence or the same error. -/
theorem duracion_no_influye (os1 os2 : List Orden)
    (h : List.Forall₂ (fun a b => a.id = b.id ∧ a.dependencia = b.dependencia) os1 os2) :
    planificarProduccion (some os1) = planificarProduccion (some os2) := by
  apply planificarProduccion_congr
  induction h with
  | nil => rfl
  | cons hab _ ih =>
    have hd : ∀ a b : Orden, a.dependencia = b.dependencia → a.declarada = b.declarada := by
      intro a b hab1
      simp only [Orden.declarada, hab1]
    simp only [List.map_cons, ih, hd _ _ hab.2, hab.1]

theorem duracion_no_influye_witness :
    List.Forall₂ (fun a b => a.id = b.id ∧ a.dependencia = b.dependencia)
        [(⟨"B", 2, some "A"⟩ : Orden), ⟨"A", 1, none⟩]
        [(⟨"B", 70, some "A"⟩ : Orden), ⟨"A", -3, none⟩] ∧
      planificarProduccion (some [⟨"B", 2, some "A"⟩, ⟨"A", 1, none⟩])
        = planificarProduccion (some [⟨"B", 70, some "A"⟩, ⟨"A", -3, none⟩]) :=
  ⟨List.Forall₂.cons ⟨rfl, rfl⟩ (List.Forall₂.cons ⟨rfl, rfl⟩ List.Forall₂.nil),
    duracion_no_influye _ _
      (List.Forall₂.cons ⟨rfl, rfl⟩ (List.Forall₂.cons ⟨rfl, rfl⟩ List.Forall₂.nil))⟩

/-- C17: for every input in which two orders share an id the function never
returns a sequence: it fails with the reference error if some declared
dependency is missing, and with the circular-dependency error otherwise,
whether or not the dependency relation has a cycle. -/
theorem ids_repetidos (os : List Orden) (h : ¬ (ids os).Nodup) :
    (∀ plan, planificarProduccion (some os) ≠ some (.ok plan)) ∧
      ((∃ o ∈ os, ∃ d, o.declarada = some d ∧ d ∉ ids os) →
        ∃ o ∈ os, ∃ d, o.declarada = some d ∧ d ∉ ids os ∧
          planificarProduccion (some os) = some (.error (mensajeReferencia d o.id))) ∧
      (ReferenciasValidas os →
        planificarProduccion (some os) = some (.error mensajeCircular)) := by
  have hno : ∀ plan, planificarProduccion (some os) ≠ some (.ok plan) :=
    fun plan hp => h (exito_spec os plan hp).2.2.2.1
  refine ⟨hno, ?_, ?_⟩
  · rintro ⟨o, ho, d, hd, hn⟩
    cases hp : primeraInvalida os with
    | none => exact absurd ((primeraInvalida_eq_none os).1 hp o ho d hd) hn
    | some o1 =>
      obtain ⟨d1, hd1, hn1, h1⟩ := planificarLista_invalida os o1 hp
      unfold primeraInvalida at hp
      exact ⟨o1, List.mem_of_find?_eq_some hp, d1, hd1, hn1,
        by rw [planificarProduccion_lista, h1]⟩
  · intro hv
    obtain ⟨final, _, h1⟩ := planificarLista_validas os hv
    by_cases hl : final.length = os.length
    · exfalso
      apply hno final
      rw [planificarProduccion_lista, h1]; simp [hl]
    · rw [planificarProduccion_lista, h1]; simp [hl]

theorem ids_repetidos_witness :
    ¬ (ids [⟨"A", 1, none⟩, ⟨"A", 2, none⟩]).Nodup ∧
      ((∀ plan, planificarProduccion (some [⟨"A", 1, none⟩, ⟨"A", 2, none⟩])
          ≠ some (.ok plan)) ∧
        ((∃ o ∈ [(⟨"A", 1, none⟩ : Orden), ⟨"A", 2, none⟩], ∃ d, o.declarada = some d ∧
            d ∉ ids [⟨"A", 1, none⟩, ⟨"A", 2, none⟩]) →
          ∃ o ∈ [(⟨"A", 1, none⟩ : Orden), ⟨"A", 2, none⟩], ∃ d, o.declarada = some d ∧
            d ∉ ids [⟨"A", 1, none⟩, ⟨"A", 2, none⟩] ∧
            planificarProduccion (some [⟨"A", 1, none⟩, ⟨"A", 2, none⟩])
              = some (.error (mensajeReferencia d o.id))) ∧
        (ReferenciasValidas [⟨"A", 1, none⟩, ⟨"A", 2, none⟩] →
          planificarProduccion (some [⟨"A", 1, none⟩, ⟨"A", 2, none⟩])
            = some (.error mensajeCircular))) :=
  ⟨by decide, ids_repetidos _ (by decide)⟩

/-- C18: an order whose `dependencia` is the empty string is treated as an
order without dependency: replacing every empty-string dependency by an
absent one does not change the result; and when every dependency other than
the empty string is an order id, no reference error is raised. -/
theorem dependencia_vacia (os : List Orden) :
    planificarProduccion (some (sinVacias os)) = planificarProduccion (some os) ∧
      ((∀ o ∈ os, ∀ d, o.dependencia = some d → d = "" ∨ d ∈ ids os) →
        ∀ d i, planificarProduccion (some os) ≠ some (.error (mensajeReferencia d i))) := by
  constructor
  · apply planificarProduccion_congr
    unfold sinVacias
    rw [List.map_map]
    apply List.map_congr_left
    intro o _
    by_cases h : o.dependencia = some ""
    · simp [Function.comp, h, Orden.declarada]
    · simp [Function.comp, h]
  · intro h d i
    apply validas_no_referencia
    intro o ho d1 hd1
    obtain ⟨h1, h2⟩ := (declarada_eq_some o d1).1 hd1
    rcases h o ho d1 h1 with h3 | h3
    · exact absurd h3 h2
    · exact h3

theorem grado_eq_zero_iff (os : List Orden) (hnd : (ids os).Nodup) (o : Orden) (ho : o ∈ os) :
    grado os o.id = 0 ↔ o.declarada = none := by
  constructor
  · intro h
    cases hd : o.declarada with
    | none => rfl
    | some d =>
      have := grado_pos os o d ho hd
      omega
  · intro h
    unfold grado
    rw [List.countP_eq_zero]
    intro o1 ho1
    simp only [decide_eq_true_eq, not_and]
    intro hid
    have : o1 = o := List.inj_on_of_nodup_map hnd ho1 ho hid
    rw [this, h]
    simp

/-- With distinct ids, the ids without prerequisites are the ids of the orders
that declare no dependency, in input order. -/
theorem raices_eq (os : List Orden) (hnd : (ids os).Nodup) :
    raices os = (os.filter (fun o => o.declarada = none)).map (fun o => o.id) := by
  unfold raices
  rw [clavesDe_of_nodup os hnd]
  unfold ids
  rw [List.filter_map]
  congr 1
  apply List.filter_congr
  intro o ho
  simp only [Function.comp]
  by_cases h : o.declarada = none
  · simp [h, (grado_eq_zero_iff os hnd o ho).2 h]
  · have h2 : ¬ grado os o.id = 0 := fun h3 => h ((grado_eq_zero_iff os hnd o ho).1 h3)
    simp [h, h2]

/-- C13: whenever the function returns a sequence, the sequence begins with
the ids of the orders that declare no dependency, in input order, and the id
of every order that declares a dependency comes after all of them. -/
theorem raices_primero (os : List Orden) (plan : List String)
    (h : planificarProduccion (some os) = some (.ok plan)) :
    ∃ resto, plan = (os.filter (fun o => o.declarada = none)).map (fun o => o.id) ++ resto ∧
      ∀ o ∈ os, ∀ d, o.declarada = some d → o.id ∈ resto ∧
        ∀ r ∈ (os.filter (fun o => o.declarada = none)).map (fun o => o.id),
          plan.indexOf r < plan.indexOf o.id := by
  obtain ⟨_, hpl, _, hids, hperm⟩ := exito_spec os plan h
  obtain ⟨resto, hresto⟩ := hpl.raices
  rw [raices_eq os hids] at hresto
  refine ⟨resto, hresto.symm, ?_⟩
  intro o ho d hd
  have hmem : o.id ∈ plan := hperm.mem_iff.2 (List.mem_map.2 ⟨o, ho, rfl⟩)
  have hnot : o.id ∉ (os.filter (fun o => o.declarada = none)).map (fun o => o.id) := by
    intro hin
    obtain ⟨o1, ho1, hid⟩ := List.mem_map.1 hin
    rw [List.mem_filter] at ho1
    have : o1 = o := List.inj_on_of_nodup_map hids ho1.1 ho hid
    rw [this, hd] at ho1
    simp at ho1
  have hin : o.id ∈ resto := by
    rw [← hresto, List.mem_append] at hmem
    exact hmem.resolve_left hnot
  refine ⟨hin, ?_⟩
  intro r hr
  rw [← hresto, List.indexOf_append_of_mem hr, List.indexOf_append_of_not_mem hnot]
  have := List.indexOf_lt_length.2 hr
  omega

theorem raices_primero_witness :
    planificarProduccion
        (some [⟨"C", 3, some "B"⟩, ⟨"A", 1, none⟩, ⟨"B", 2, some "A"⟩, ⟨"D", 4, none⟩])
        = some (.ok ["A", "D", "B", "C"]) ∧
      ∃ resto, ["A", "D", "B", "C"]
          = (([⟨"C", 3, some "B"⟩, ⟨"A", 1, none⟩, ⟨"B", 2, some "A"⟩, ⟨"D", 4, none⟩]
              : List Orden).filter (fun o => o.declarada = none)).map (fun o => o.id)
            ++ resto ∧
        ∀ o ∈ ([⟨"C", 3, some "B"⟩, ⟨"A", 1, none⟩, ⟨"B", 2, some "A"⟩, ⟨"D", 4, none⟩]
            : List Orden), ∀ d, o.declarada = some d → o.id ∈ resto ∧
          ∀ r ∈ (([⟨"C", 3, some "B"⟩, ⟨"A", 1, none⟩, ⟨"B", 2, some "A"⟩, ⟨"D", 4, none⟩]
              : List Orden).filter (fun o => o.declarada = none)).map (fun o => o.id),
            ["A", "D", "B", "C"].indexOf r < ["A", "D", "B", "C"].indexOf o.id :=
  ⟨rfl, raices_primero _ _ rfl⟩

/-! ## The loop, step by step -/

theorem procesarSiguientes_append (l1 l2 : List String) (deg : Mapa Int) (queue : List String) :
    procesarSiguientes (l1 ++ l2) deg queue
      = procesarSiguientes l2 (procesarSiguientes l1 deg queue).1
          (procesarSiguientes l1 deg queue).2 := by
  induction l1 generalizing deg queue with
  | nil => rfl
  | cons s l1 ih =>
    simp only [List.cons_append, procesarSiguientes]
    by_cases h : Mapa.get (Mapa.modificar deg s (fun g => g - 1)) s = some 0
    · simp only [h, if_true]; exact ih _ _
    · simp only [h, if_false]; exact ih _ _

/-- The steps of the `for` compute `procesarSiguientes`. -/
theorem alcanza_procesar (adj : Mapa (List String)) (sig queue : List String)
    (deg : Mapa Int) (plan : List String) :
    Alcanza adj ⟨sig, queue, deg, plan⟩
      ⟨[], (procesarSiguientes sig deg queue).2, (procesarSiguientes sig deg queue).1, plan⟩ := by
  induction sig generalizing deg queue with
  | nil => exact Relation.ReflTransGen.refl
  | cons s sig ih =>
    by_cases h : Mapa.get (Mapa.modificar deg s (fun g => g - 1)) s = some 0
    · refine Relation.ReflTransGen.head (b := ⟨sig, queue ++ [s],
        Mapa.modificar deg s (fun g => g - 1), plan⟩) ?_ ?_
      · simp [paso, h]
      · have := ih (queue ++ [s]) (Mapa.modificar deg s (fun g => g - 1))
        simpa [procesarSiguientes, h] using this
    · refine Relation.ReflTransGen.head (b := ⟨sig, queue,
        Mapa.modificar deg s (fun g => g - 1), plan⟩) ?_ ?_
      · simp [paso, h]
      · have := ih queue (Mapa.modificar deg s (fun g => g - 1))
        simpa [procesarSiguientes, h] using this

/-- The steps compute the loop: when `bucle` ends with a plan, the steps lead
from its start to a state with that plan, an empty queue and nothing
pending, from which there is no further step. -/
theorem alcanza_bucle (adj : Mapa (List String)) (fuel : Nat) (queue : List String)
    (deg : Mapa Int) (plan final : List String)
    (h : bucle adj fuel queue deg plan = some final) :
    ∃ deg1, Alcanza adj ⟨[], queue, deg, plan⟩ ⟨[], [], deg1, final⟩ ∧
      paso adj ⟨[], [], deg1, final⟩ = none := by
  induction fuel generalizing queue deg plan with
  | zero =>
    cases queue with
    | nil =>
      simp only [bucle, Option.some.injEq] at h
      subst h
      exact ⟨deg, Relation.ReflTransGen.refl, rfl⟩
    | cons a resto => simp [bucle] at h
  | succ fuel ih =>
    cases queue with
    | nil =>
      simp only [bucle, Option.some.injEq] at h
      subst h
      exact ⟨deg, Relation.ReflTransGen.refl, rfl⟩
    | cons a resto =>
      cases hg : Mapa.get adj a with
      | none =>
        simp only [bucle, hg] at h
        obtain ⟨deg1, h1, h2⟩ := ih _ _ _ h
        refine ⟨deg1, Relation.ReflTransGen.head ?_ h1, h2⟩
        simp [paso, hg]
      | some sig =>
        simp only [bucle, hg] at h
        obtain ⟨deg1, h1, h2⟩ := ih _ _ _ h
        refine ⟨deg1, ?_, h2⟩
        refine Relation.ReflTransGen.head (b := ⟨sig, resto, deg, plan ++ [a]⟩) ?_ ?_
        · simp [paso, hg]
        · exact Relation.ReflTransGen.trans (alcanza_procesar adj sig resto deg _) h1

/-- At the head of the `while` the invariant of the states is the invariant
of the loop. -/
theorem invarianteEstado_frontera (os : List Orden) (s : Estado)
    (h : InvarianteEstado os s) (hp : s.pendientes = []) :
    Invariante os s.queue s.inDegree s.planFinal := by
  rcases h with ⟨_, h⟩ | ⟨a, resto, deg, plan, hecho, hinv, hh, hq, hd, hpl⟩
  · exact h
  · rw [hp, List.append_nil] at hh
    rw [hq, hd, hpl, ← hh]
    exact (invariante_paso os a resto deg plan hinv).1

/-- Every step keeps the invariant of the states. -/
theorem invarianteEstado_paso (os : List Orden) (adj : Mapa (List String))
    (hadj : ∀ k ∈ clavesDe os, Mapa.get adj k = some (hijos os k)) (s t : Estado)
    (h : InvarianteEstado os s) (hst : paso adj s = some t) : InvarianteEstado os t := by
  obtain ⟨pend, queue, deg, plan⟩ := s
  cases pend with
  | nil =>
    have hinv := invarianteEstado_frontera os _ h rfl
    simp only at hinv
    cases queue with
    | nil => simp [paso] at hst
    | cons a resto =>
      have haK : a ∈ clavesDe os := hinv.sub a (by simp)
      simp only [paso, hadj a haK, Option.some.injEq] at hst
      subst hst
      exact Or.inr ⟨a, resto, deg, plan, [], hinv, by simp, rfl, rfl, rfl⟩
  | cons s1 rest =>
    rcases h with ⟨h, _⟩ | ⟨a, resto, deg0, plan0, hecho, hinv, hh, hq, hd, hpl⟩
    · simp at h
    · simp only at hh hq hd hpl
      have hmid : procesarSiguientes (hecho ++ [s1]) deg0 resto
          = procesarSiguientes [s1] deg queue := by
        rw [procesarSiguientes_append, ← hq, ← hd]
      refine Or.inr ⟨a, resto, deg0, plan0, hecho ++ [s1], hinv, ?_, ?_, ?_, ?_⟩
      · by_cases h0 : Mapa.get (Mapa.modificar deg s1 (fun g => g - 1)) s1 = some 0
        · simp only [paso, h0, if_true, Option.some.injEq] at hst
          subst hst
          simpa using hh
        · simp only [paso, h0, if_false, Option.some.injEq] at hst
          subst hst
          simpa using hh
      · rw [hmid]
        by_cases h0 : Mapa.get (Mapa.modificar deg s1 (fun g => g - 1)) s1 = some 0
        · simp only [paso, h0, if_true, Option.some.injEq] at hst
          subst hst
          simp [procesarSiguientes, h0]
        · simp only [paso, h0, if_false, Option.some.injEq] at hst
          subst hst
          simp [procesarSiguientes, h0]
      · rw [hmid]
        by_cases h0 : Mapa.get (Mapa.modificar deg s1 (fun g => g - 1)) s1 = some 0
        · simp only [paso, h0, if_true, Option.some.injEq] at hst
          subst hst
          simp [procesarSiguientes, h0]
        · simp only [paso, h0, if_false, Option.some.injEq] at hst
          subst hst
          simp [procesarSiguientes, h0]
      · by_cases h0 : Mapa.get (Mapa.modificar deg s1 (fun g => g - 1)) s1 = some 0
        · simp only [paso, h0, if_true, Option.some.injEq] at hst
          subst hst
          exact hpl
        · simp only [paso, h0, if_false, Option.some.injEq] at hst
          subst hst
          exact hpl

/-- Every state reached from a state with the invariant has the invariant. -/
theorem invarianteEstado_alcanza (os : List Orden) (adj : Mapa (List String))
    (hadj : ∀ k ∈ clavesDe os, Mapa.get adj k = some (hijos os k)) (s t : Estado)
    (h : InvarianteEstado os s) (hst : Alcanza adj s t) : InvarianteEstado os t := by
  induction hst with
  | refl => exact h
  | tail _ h2 ih => exact invarianteEstado_paso os adj hadj _ _ ih h2

/-- The facts about a state with the invariant: no id is planned or queued
twice, the plan is no longer than the number of distinct ids, every counter
is non-negative, and the counter of every planned or queued id is `0`. -/
theorem invarianteEstado_hechos (os : List Orden) (s : Estado) (h : InvarianteEstado os s) :
    (s.planFinal ++ s.queue).Nodup ∧ s.planFinal.length ≤ (clavesDe os).length ∧
      (∀ k v, Mapa.get s.inDegree k = some v → 0 ≤ v) ∧
      (∀ x ∈ s.planFinal ++ s.queue, Mapa.get s.inDegree x = some 0) := by
  have hfrontera : ∀ queue deg plan, Invariante os queue deg plan →
      (plan ++ queue).Nodup ∧ plan.length ≤ (clavesDe os).length ∧
      (∀ k v, Mapa.get deg k = some v → 0 ≤ v) ∧
      (∀ x ∈ plan ++ queue, Mapa.get deg x = some 0) := by
    intro queue deg plan hinv
    refine ⟨hinv.nodup, ?_, ?_, ?_⟩
    · have := (List.subperm_of_subset hinv.nodup hinv.sub).length_le
      simp only [List.length_append] at this
      omega
    · intro k v hk
      have hkK : k ∈ clavesDe os := by
        rw [← hinv.claves]
        by_contra hn
        rw [(Mapa.get_eq_none_iff deg k).2 hn] at hk
        cases hk
      rw [hinv.grados k hkK] at hk
      have h1 := resueltas_le_grado os plan k
      have h2 := Option.some.inj hk
      omega
    · intro x hx
      have hxK := hinv.sub x hx
      rw [hinv.grados x hxK, (hinv.listas x hxK).1 hx]
      simp
  rcases h with ⟨_, h⟩ | ⟨a, resto, deg, plan, hecho, hinv, hh, hq, hd, hpl⟩
  · exact hfrontera _ _ _ h
  · obtain ⟨hnd0, hlen0, _, hcero0⟩ := hfrontera _ _ _ hinv
    obtain ⟨e, he, hcl, hget, _, hnd, hmem⟩ := procesarSiguientes_spec hecho deg resto
    have hanp : a ∉ plan := by
      intro hap
      exact (List.nodup_append.1 hinv.nodup).2.2 hap (List.mem_cons_self _ _)
    have hcount : ∀ k, hecho.count k ≤ (hijos os a).count k := by
      intro k
      rw [hh, List.count_append]
      omega
    have hres : ∀ k, resueltas os plan k + (hijos os a).count k ≤ grado os k := by
      intro k
      rw [← resueltas_append os plan a k hanp]
      exact resueltas_le_grado os _ k
    have hS : (plan ++ [a]) ++ (resto ++ e) = (plan ++ a :: resto) ++ e := by simp
    rw [hq, hd, hpl, he]
    refine ⟨?_, ?_, ?_, ?_⟩
    · rw [hS]
      refine List.Nodup.append hnd0 hnd ?_
      intro k hkS hke
      obtain ⟨g, hg1, hg2, _⟩ := (hmem k).1 hke
      rw [hcero0 k hkS] at hg1
      have := Option.some.inj hg1
      omega
    · have := (List.subperm_of_subset hinv.nodup hinv.sub).length_le
      simp only [List.length_append, List.length_cons, List.length_singleton,
        List.length_nil] at this ⊢
      omega
    · intro k v hk
      rw [hget k] at hk
      have hkK : k ∈ clavesDe os := by
        rw [← hinv.claves]
        by_contra hn
        rw [(Mapa.get_eq_none_iff deg k).2 hn] at hk
        cases hk
      rw [hinv.grados k hkK] at hk
      simp only [Option.map_some', Option.some.injEq] at hk
      have h1 := hres k
      have h2 := hcount k
      omega
    · intro x hx
      rw [hS, List.mem_append] at hx
      rcases hx with hx | hx
      · have hxK := hinv.sub x hx
        have h1 := (hinv.listas x hxK).1 hx
        have h2 := hres x
        have h3 := hcount x
        rw [hget x, hinv.grados x hxK]
        simp only [Option.map_some', Option.some.injEq]
        omega
      · obtain ⟨g, hg1, hg2, hg3⟩ := (hmem x).1 hx
        rw [hget x, hg1]
        simp only [Option.map_some', Option.some.injEq]
        have hxK : x ∈ clavesDe os := by
          rw [← hinv.claves]
          by_contra hn
          rw [(Mapa.get_eq_none_iff deg x).2 hn] at hg1
          cases hg1
        rw [hinv.grados x hxK] at hg1
        have h1 := Option.some.inj hg1
        have h2 := hres x
        have h3 := hcount x
        omega

theorem length_clavesDe (os : List Orden) :
    (clavesDe os).length = (ids os).toFinset.card := by
  rw [← List.toFinset_card_of_nodup (nodup_clavesDe os)]
  congr 1
  ext x
  simp [mem_clavesDe]

/-- The maps of an input with valid references, and the invariant of the state
in which the loop is entered. -/
theorem grafo_inicial (os : List Orden) (hv : ReferenciasValidas os) :
    ∃ adj deg, grafo os = .ok (adj, deg) ∧
      (∀ k ∈ clavesDe os, Mapa.get adj k = some (hijos os k)) ∧
      Invariante os (colaInicial deg) deg [] := by
  obtain ⟨adj, deg, h1, h2, h3, _, h5⟩ := grafo_spec os hv
  exact ⟨adj, deg, h1, h3, invariante_inicial os deg h2 h5⟩

theorem paso_no_aumenta (adj : Mapa (List String)) (s t : Estado)
    (hst : paso adj s = some t) (k : String) (v : Int)
    (hk : Mapa.get s.inDegree k = some v) :
    ∃ w, Mapa.get t.inDegree k = some w ∧ w ≤ v := by
  obtain ⟨pend, queue, deg, plan⟩ := s
  simp only at hk
  cases pend with
  | cons s1 rest =>
    have hget := Mapa.get_modificar deg s1 (fun g => g - 1) k
    have hdeg : t.inDegree = Mapa.modificar deg s1 (fun g => g - 1) := by
      by_cases h0 : Mapa.get (Mapa.modificar deg s1 (fun g => g - 1)) s1 = some 0
      · simp only [paso, h0, if_true, Option.some.injEq] at hst
        rw [← hst]
      · simp only [paso, h0, if_false, Option.some.injEq] at hst
        rw [← hst]
    rw [hdeg, hget]
    by_cases h1 : s1 = k
    · subst h1
      refine ⟨v - 1, by simp [hk], by omega⟩
    · exact ⟨v, by simp [h1, hk], le_refl _⟩
  | nil =>
    cases queue with
    | nil => simp [paso] at hst
    | cons a resto =>
      have hdeg : t.inDegree = deg := by
        cases hg : Mapa.get adj a with
        | none =>
          simp only [paso, hg, Option.some.injEq] at hst
          rw [← hst]
        | some sig =>
          simp only [paso, hg, Option.some.injEq] at hst
          rw [← hst]
      rw [hdeg]
      exact ⟨v, hk, le_refl _⟩

theorem paso_planifica (adj : Mapa (List String)) (s t : Estado) (a : String)
    (hst : paso adj s = some t) (hpl : t.planFinal = s.planFinal ++ [a]) :
    a ∈ s.planFinal ++ s.queue := by
  obtain ⟨pend, queue, deg, plan⟩ := s
  simp only at hpl ⊢
  cases pend with
  | cons s1 rest =>
    have hplan : t.planFinal = plan := by
      by_cases h0 : Mapa.get (Mapa.modificar deg s1 (fun g => g - 1)) s1 = some 0
      · simp only [paso, h0, if_true, Option.some.injEq] at hst
        rw [← hst]
      · simp only [paso, h0, if_false, Option.some.injEq] at hst
        rw [← hst]
    rw [hplan] at hpl
    have := congrArg List.length hpl
    simp at this
  | nil =>
    cases queue with
    | nil => simp [paso] at hst
    | cons b resto =>
      have hplan : t.planFinal = plan ++ [b] := by
        cases hg : Mapa.get adj b with
        | none =>
          simp only [paso, hg, Option.some.injEq] at hst
          rw [← hst]
        | some sig =>
          simp only [paso, hg, Option.some.injEq] at hst
          rw [← hst]
      rw [hplan] at hpl
      have hab : b = a := by simpa using List.append_cancel_left hpl
      subst hab
      simp

/-- C14: for every input that passes reference validation, with or without
cycles and duplicate ids, the loop ends within as many iterations as the
input has distinct ids; in every state it reaches no id is planned or queued
twice, which is to say that each id is put on the queue at most once, and
the iterations begun, one for each planned id, are at most the distinct
ids. -/
theorem bucle_acotado (os : List Orden) (hv : ReferenciasValidas os) :
    ∃ adj deg, grafo os = .ok (adj, deg) ∧
      (∃ final, bucle adj (ids os).toFinset.card (colaInicial deg) deg [] = some final ∧
        final.length ≤ (ids os).toFinset.card) ∧
      (∀ s, Alcanza adj (estadoInicial deg) s →
        (s.planFinal ++ s.queue).Nodup ∧ s.planFinal.length ≤ (ids os).toFinset.card) := by
  obtain ⟨adj, deg, hg, hadj, hinv⟩ := grafo_inicial os hv
  refine ⟨adj, deg, hg, ?_, ?_⟩
  · obtain ⟨final, deg1, h1, h2, _⟩ :=
      bucle_spec os adj hadj (ids os).toFinset.card (colaInicial deg) deg [] hinv
        (by simp [length_clavesDe])
    refine ⟨final, h1, ?_⟩
    have := (List.subperm_of_subset h2.nodup h2.sub).length_le
    rw [length_clavesDe] at this
    simpa using this
  · intro s hs
    have h1 := invarianteEstado_alcanza os adj hadj _ s (Or.inl ⟨rfl, hinv⟩) hs
    obtain ⟨h2, h3, _, _⟩ := invarianteEstado_hechos os s h1
    rw [length_clavesDe] at h3
    exact ⟨h2, h3⟩

theorem bucle_acotado_witness :
    ReferenciasValidas
        [⟨"A", 1, some "B"⟩, ⟨"B", 2, some "A"⟩, ⟨"C", 3, none⟩, ⟨"C", 4, none⟩] ∧
      ∃ adj deg,
        grafo [⟨"A", 1, some "B"⟩, ⟨"B", 2, some "A"⟩, ⟨"C", 3, none⟩, ⟨"C", 4, none⟩]
          = .ok (adj, deg) ∧
        (∃ final, bucle adj
            (ids [⟨"A", 1, some "B"⟩, ⟨"B", 2, some "A"⟩, ⟨"C", 3, none⟩,
              ⟨"C", 4, none⟩]).toFinset.card (colaInicial deg) deg [] = some final ∧
          final.length ≤
            (ids [⟨"A", 1, some "B"⟩, ⟨"B", 2, some "A"⟩, ⟨"C", 3, none⟩,
              ⟨"C", 4, none⟩]).toFinset.card) ∧
        (∀ s, Alcanza adj (estadoInicial deg) s →
          (s.planFinal ++ s.queue).Nodup ∧
          s.planFinal.length ≤
            (ids [⟨"A", 1, some "B"⟩, ⟨"B", 2, some "A"⟩, ⟨"C", 3, none⟩,
              ⟨"C", 4, none⟩]).toFinset.card) :=
  ⟨by decide, bucle_acotado _ (by decide)⟩

/-- C15: for every input that passes reference validation, in every state the
loop reaches every in-degree counter is non-negative, no step increases a
counter, a step appends an id to the output only when its counter is `0`, and
every id of the output has counter `0`, so that an id whose counter never
reaches `0` is never output. The states are those of the loop of the
function: the plan it ends with is the output of a state that is reached. -/
theorem contadores (os : List Orden) (hv : ReferenciasValidas os) :
    ∃ adj deg, grafo os = .ok (adj, deg) ∧
      (∀ s, Alcanza adj (estadoInicial deg) s →
        (∀ k v, Mapa.get s.inDegree k = some v → 0 ≤ v) ∧
        (∀ t, paso adj s = some t → ∀ k v, Mapa.get s.inDegree k = some v →
          ∃ w, Mapa.get t.inDegree k = some w ∧ w ≤ v) ∧
        (∀ t a, paso adj s = some t → t.planFinal = s.planFinal ++ [a] →
          Mapa.get s.inDegree a = some 0) ∧
        (∀ a ∈ s.planFinal, Mapa.get s.inDegree a = some 0)) ∧
      (∀ final, bucle adj os.length (colaInicial deg) deg [] = some final →
        ∃ deg1, Alcanza adj (estadoInicial deg) ⟨[], [], deg1, final⟩) := by
  obtain ⟨adj, deg, hg, hadj, hinv⟩ := grafo_inicial os hv
  refine ⟨adj, deg, hg, ?_, ?_⟩
  · intro s hs
    have h1 := invarianteEstado_alcanza os adj hadj _ s (Or.inl ⟨rfl, hinv⟩) hs
    obtain ⟨_, _, h4, h5⟩ := invarianteEstado_hechos os s h1
    refine ⟨h4, ?_, ?_, ?_⟩
    · intro t ht k v hk
      exact paso_no_aumenta adj s t ht k v hk
    · intro t a ht hpl
      exact h5 a (paso_planifica adj s t a ht hpl)
    · intro a ha
      exact h5 a (List.mem_append_left _ ha)
  · intro final hf
    obtain ⟨deg1, h1, _⟩ := alcanza_bucle adj os.length _ deg [] final hf
    exact ⟨deg1, h1⟩

theorem contadores_witness :
    ReferenciasValidas [⟨"A", 1, some "B"⟩, ⟨"B", 2, some "A"⟩, ⟨"C", 3, none⟩] ∧
      ∃ adj deg,
        grafo [⟨"A", 1, some "B"⟩, ⟨"B", 2, some "A"⟩, ⟨"C", 3, none⟩] = .ok (adj, deg) ∧
        (∀ s, Alcanza adj (estadoInicial deg) s →
          (∀ k v, Mapa.get s.inDegree k = some v → 0 ≤ v) ∧
          (∀ t, paso adj s = some t → ∀ k v, Mapa.get s.inDegree k = some v →
            ∃ w, Mapa.get t.inDegree k = some w ∧ w ≤ v) ∧
          (∀ t a, paso adj s = some t → t.planFinal = s.planFinal ++ [a] →
            Mapa.get s.inDegree a = some 0) ∧
          (∀ a ∈ s.planFinal, Mapa.get s.inDegree a = some 0)) ∧
        (∀ final,
          bucle adj [(⟨"A", 1, some "B"⟩ : Orden), ⟨"B", 2, some "A"⟩, ⟨"C", 3, none⟩].length
              (colaInicial deg) deg [] = some final →
          ∃ deg1, Alcanza adj (estadoInicial deg) ⟨[], [], deg1, final⟩) :=
  ⟨by decide, contadores _ (by decide)⟩

/-! ## The traversal by levels -/

theorem nivelDesde_nil (os : List Orden) (k : Nat) : nivelDesde os [] k = [] := by
  induction k with
  | zero => rfl
  | succ k ih => simp [nivelDesde, ih]

theorem nivelDesde_succ (os : List Orden) (inicio : List String) (k : Nat) :
    nivelDesde os inicio (k + 1) = nivelDesde os (inicio.flatMap (hijos os)) k := by
  induction k with
  | zero => rfl
  | succ k ih =>
    rw [nivelDesde, ih]
    rfl

theorem nivel_eq_nivelDesde (os : List Orden) (k : Nat) :
    nivel os k = nivelDesde os (nivel os 0) k := by
  induction k with
  | zero => rfl
  | succ k ih => simp only [nivel, nivelDesde, ih]

/-- With distinct ids the loop plans the ids in the order of `recorrerCola`. -/
theorem bucle_eq_recorrerCola (os : List Orden) (adj : Mapa (List String))
    (hadj : ∀ k ∈ clavesDe os, Mapa.get adj k = some (hijos os k))
    (hnd : (ids os).Nodup) (fuel : Nat) (queue : List String) (deg : Mapa Int)
    (plan : List String) (hinv : Invariante os queue deg plan) :
    bucle adj fuel queue deg plan = (recorrerCola os fuel queue).map (fun r => plan ++ r) := by
  induction fuel generalizing queue deg plan with
  | zero =>
    cases queue with
    | nil => simp [bucle, recorrerCola]
    | cons a resto => simp [bucle, recorrerCola]
  | succ fuel ih =>
    cases queue with
    | nil => simp [bucle, recorrerCola]
    | cons a resto =>
      have haK : a ∈ clavesDe os := hinv.sub a (by simp)
      obtain ⟨hinv1, e, he, heq⟩ := invariante_paso os a resto deg plan hinv
      simp only [bucle, hadj a haK, recorrerCola]
      rw [ih _ _ _ hinv1, he, heq hnd]
      cases recorrerCola os fuel (resto ++ hijos os a) <;> simp

theorem recorrerCola_nivel (os : List Orden) (q : List String) :
    ∀ (fuel : Nat) (n r : List String), recorrerCola os fuel (q ++ n) = some r →
      ∃ r1 fuel1, r = q ++ r1 ∧ fuel1 + q.length = fuel ∧
        recorrerCola os fuel1 (n ++ q.flatMap (hijos os)) = some r1 := by
  induction q with
  | nil =>
    intro fuel n r h
    exact ⟨r, fuel, by simp, by simp, by simpa using h⟩
  | cons a q ih =>
    intro fuel n r h
    cases fuel with
    | zero => simp [recorrerCola] at h
    | succ fuel =>
      rw [List.cons_append] at h
      simp only [recorrerCola, Option.map_eq_some'] at h
      obtain ⟨r0, h0, hr⟩ := h
      have h00 : recorrerCola os fuel (q ++ (n ++ hijos os a)) = some r0 := by
        rw [← List.append_assoc]; exact h0
      obtain ⟨r1, fuel1, h1, h2, h3⟩ := ih fuel (n ++ hijos os a) r0 h00
      refine ⟨r1, fuel1, ?_, ?_, ?_⟩
      · rw [← hr, h1]; simp
      · simp only [List.length_cons]; omega
      · simpa [List.flatMap_cons, List.append_assoc] using h3

/-- The order of `recorrerCola` is the order by levels. -/
theorem recorrerCola_niveles (os : List Orden) :
    ∀ (fuel : Nat) (inicio r : List String), recorrerCola os fuel inicio = some r →
      ∃ n, r = (List.range n).flatMap (nivelDesde os inicio) ∧
        ∀ m, n ≤ m → nivelDesde os inicio m = [] := by
  intro fuel
  induction fuel using Nat.strong_induction_on with
  | _ fuel ih =>
    intro inicio r h
    cases inicio with
    | nil =>
      have hr : r = [] := by
        cases fuel <;> simpa [recorrerCola] using h.symm
      exact ⟨0, by simp [hr], fun m _ => nivelDesde_nil os m⟩
    | cons a resto =>
      obtain ⟨r1, fuel1, h1, h2, h3⟩ :=
        recorrerCola_nivel os (a :: resto) fuel [] r (by simpa using h)
      simp only [List.nil_append] at h3
      have hlt : fuel1 < fuel := by
        simp only [List.length_cons] at h2
        omega
      obtain ⟨n, hn1, hn2⟩ := ih fuel1 hlt _ r1 h3
      refine ⟨n + 1, ?_, ?_⟩
      · rw [List.range_succ_eq_map, List.flatMap_cons, List.flatMap_map, h1, hn1]
        congr 1
        apply List.flatMap_congr
        intro k _
        exact (nivelDesde_succ os (a :: resto) k).symm
      · intro m hm
        cases m with
        | zero => omega
        | succ m =>
          rw [nivelDesde_succ]
          exact hn2 m (by omega)

/-- The loop behind a returned plan: it was entered with the queue of the ids
without prerequisites and ended, within its fuel, with that plan. -/
theorem exito_bucle (os : List Orden) (plan : List String)
    (h : planificarProduccion (some os) = some (.ok plan)) :
    ∃ adj deg, (∀ k ∈ clavesDe os, Mapa.get adj k = some (hijos os k)) ∧
      Invariante os (colaInicial deg) deg [] ∧ colaInicial deg = raices os ∧
      bucle adj os.length (colaInicial deg) deg [] = some plan := by
  have hv := (exito_spec os plan h).1
  obtain ⟨adj, deg, h1, h2, h3, _, h5⟩ := grafo_spec os hv
  have hq : colaInicial deg = raices os := by
    rw [colaInicial_eq deg (h2 ▸ nodup_clavesDe os), h2]
    apply List.filter_congr
    intro k hk
    rw [h5 k hk]
    simp
  refine ⟨adj, deg, h3, invariante_inicial os deg h2 h5, hq, ?_⟩
  rw [planificarProduccion_lista] at h
  unfold planificarLista at h
  simp only [ids] at h1
  simp only [h1] at h
  cases hb : bucle adj os.length (colaInicial deg) deg [] with
  | none => simp [hb] at h
  | some final =>
    simp only [hb] at h
    by_cases hl : final.length = os.length
    · simp only [hl, if_true, Option.some.injEq, Except.ok.injEq] at h
      rw [h]
    · simp [hl] at h

/-- C16: whenever the function returns a sequence (the ids are then pairwise
distinct), the sequence is the traversal of the dependency forest level by
level, `L0 ++ L1 ++ L2 ++ ...`, all levels from some `n` on being empty; and
an id of a lower level stands before every id of a higher level. -/
theorem recorrido_por_niveles (os : List Orden) (plan : List String)
    (h : planificarProduccion (some os) = some (.ok plan)) :
    ∃ n, plan = (List.range n).flatMap (nivel os) ∧ (∀ m, n ≤ m → nivel os m = []) ∧
      ∀ i j x y, i < j → x ∈ nivel os i → y ∈ nivel os j →
        plan.indexOf x < plan.indexOf y := by
  obtain ⟨_, hpl, _, hids, _⟩ := exito_spec os plan h
  obtain ⟨adj, deg, hadj, hinv, hq, hb⟩ := exito_bucle os plan h
  rw [bucle_eq_recorrerCola os adj hadj hids _ _ _ _ hinv, hq, raices_eq os hids] at hb
  have hrc : recorrerCola os os.length (nivel os 0) = some plan := by
    cases hr : recorrerCola os os.length
        ((os.filter (fun o => o.declarada = none)).map (fun o => o.id)) with
    | none => simp [hr] at hb
    | some r =>
      simp only [hr, Option.map_some', List.nil_append, Option.some.injEq] at hb
      rw [← hb]
      exact hr
  obtain ⟨n, hn1, hn2⟩ := recorrerCola_niveles os os.length (nivel os 0) plan hrc
  have hplan : plan = (List.range n).flatMap (nivel os) := by
    rw [hn1]
    apply List.flatMap_congr
    intro k _
    exact (nivel_eq_nivelDesde os k).symm
  have hvacio : ∀ m, n ≤ m → nivel os m = [] := by
    intro m hm
    rw [nivel_eq_nivelDesde]
    exact hn2 m hm
  refine ⟨n, hplan, hvacio, ?_⟩
  intro i j x y hij hx hy
  have hjn : j < n := by
    by_contra hge
    rw [hvacio j (by omega)] at hy
    simp at hy
  have hsplit : List.range n
      = List.range (i + 1) ++ List.map (fun k => i + 1 + k) (List.range (n - (i + 1))) := by
    rw [← List.range_add]
    congr 1
    omega
  have hAB : plan = (List.range (i + 1)).flatMap (nivel os)
      ++ (List.map (fun k => i + 1 + k) (List.range (n - (i + 1)))).flatMap (nivel os) := by
    rw [hplan, hsplit, List.flatMap_append]
  have hxA : x ∈ (List.range (i + 1)).flatMap (nivel os) :=
    List.mem_flatMap.2 ⟨i, List.mem_range.2 (by omega), hx⟩
  have hyB : y ∈ (List.map (fun k => i + 1 + k) (List.range (n - (i + 1)))).flatMap
      (nivel os) := by
    refine List.mem_flatMap.2 ⟨j, ?_, hy⟩
    rw [List.mem_map]
    exact ⟨j - (i + 1), List.mem_range.2 (by omega), by omega⟩
  have hnd := hpl.nodup
  rw [hAB] at hnd
  have hyA : y ∉ (List.range (i + 1)).flatMap (nivel os) :=
    fun hin => (List.nodup_append.1 hnd).2.2 hin hyB
  rw [hAB, List.indexOf_append_of_mem hxA, List.indexOf_append_of_not_mem hyA]
  have := List.indexOf_lt_length.2 hxA
  omega

theorem recorrido_por_niveles_witness :
    planificarProduccion (some [⟨"E", 5, some "B"⟩, ⟨"C", 3, some "A"⟩, ⟨"A", 1, none⟩,
        ⟨"D", 4, none⟩, ⟨"B", 2, some "A"⟩, ⟨"F", 6, some "D"⟩])
        = some (.ok ["A", "D", "C", "B", "F", "E"]) ∧
      ∃ n, ["A", "D", "C", "B", "F", "E"]
          = (List.range n).flatMap (nivel [⟨"E", 5, some "B"⟩, ⟨"C", 3, some "A"⟩,
              ⟨"A", 1, none⟩, ⟨"D", 4, none⟩, ⟨"B", 2, some "A"⟩, ⟨"F", 6, some "D"⟩]) ∧
        (∀ m, n ≤ m → nivel [⟨"E", 5, some "B"⟩, ⟨"C", 3, some "A"⟩,
            ⟨"A", 1, none⟩, ⟨"D", 4, none⟩, ⟨"B", 2, some "A"⟩, ⟨"F", 6, some "D"⟩] m = []) ∧
        ∀ i j x y, i < j →
          x ∈ nivel [⟨"E", 5, some "B"⟩, ⟨"C", 3, some "A"⟩,
            ⟨"A", 1, none⟩, ⟨"D", 4, none⟩, ⟨"B", 2, some "A"⟩, ⟨"F", 6, some "D"⟩] i →
          y ∈ nivel [⟨"E", 5, some "B"⟩, ⟨"C", 3, some "A"⟩,
            ⟨"A", 1, none⟩, ⟨"D", 4, none⟩, ⟨"B", 2, some "A"⟩, ⟨"F", 6, some "D"⟩] j →
          ["A", "D", "C", "B", "F", "E"].indexOf x < ["A", "D", "C", "B", "F", "E"].indexOf y :=
  ⟨rfl, recorrido_por_niveles _ _ rfl⟩

end Planificador
